import Mathlib

/-!
# GOL-Parallel: a toroidal Game of Life advanced by barrier-synchronised workers

A shallow embedding of `gol.c`, `barrier.c` and the generation loop of `main.c`.

Modelling conventions.

* A C `int` has 32 bits.  Its value is held in an `Int`; C's `/` and `%` truncate
  toward zero, so they are `Int.tdiv` and `Int.tmod`.  A sum or product that can
  leave the range `INT_MIN .. INT_MAX` is passed through `wrap_int`, the
  two's-complement result that the compiled code computes (signed overflow is
  undefined in C).  The same holds for the store of an `unsigned int` in an `int`
  and for a number that `fscanf("%d")` reads.
* An `int *` buffer is a `List Int`.  A read or write through an index that is
  negative or not below the length of the buffer is undefined behaviour in C;
  the model makes it a failure (`none`).
* A counted `for` loop `for (i = lo; i < hi; i++)` whose body does not assign its
  counter runs its body once for each counter value, in increasing order; `i++`
  never leaves the range there, since `i < hi`.  `cFor` is that loop.  The loop
  `for (turn = 0; turn <= num_turns; turn++)` has no such bound on `turn++`; it
  is `forLe`, which runs on fuel.
-/

namespace GOL

/-! ## gol.c -/

/-- The constant `INT_MAX` of a 32-bit `int`. -/
def INT_MAX : Int := 2147483647

/-- The constant `INT_MIN` of a 32-bit `int`. -/
def INT_MIN : Int := -2147483648

/-- The 32-bit two's-complement value of an integer: what an `int` holds after a
sum or product whose exact value is `x`, and after the conversion of `x` to
`int`. -/
def wrap_int (x : Int) : Int :=
  (x + 2147483648) % 4294967296 - 2147483648

/-- The function `translate_to_1D` of `gol.c`: both coordinates are shifted by the
size of their axis and reduced with C's truncating `%`. -/
def translate_to_1D (row col width height : Int) : Int :=
  let row := Int.tmod (wrap_int (row + height)) height
  let col := Int.tmod (wrap_int (col + width)) width
  wrap_int (wrap_int (row * width) + col)

/-- The read `a[i]` of a C buffer; `none` outside the buffer. -/
def readCell (a : List Int) (i : Int) : Option Int :=
  if 0 ≤ i then a[i.toNat]? else none

/-- The write `a[i] = v` of a C buffer; `none` outside the buffer. -/
def writeCell (a : List Int) (i : Int) (v : Int) : Option (List Int) :=
  if 0 ≤ i ∧ i < (a.length : Int) then some (a.set i.toNat v) else none

/-- The body of a counted loop run `n` times, the counter starting at `i`. -/
def forLoop {σ : Type} (body : Int → σ → Option σ) : Nat → Int → σ → Option σ
  | 0, _, s => some s
  | n + 1, i, s => (body i s).bind (fun s1 => forLoop body n (i + 1) s1)

/-- The loop `for (int i = lo; i < hi; i++) body`. -/
def cFor {σ : Type} (lo hi : Int) (body : Int → σ → Option σ) (s : σ) : Option σ :=
  forLoop body (hi - lo).toNat lo s

/-- The loop `for (...; turn <= last; turn++) body` from the counter value `turn`
on, the counter an `int`.  Each test of the condition takes one unit of fuel;
`none` is a failure of the body or the end of the fuel. -/
def forLe {σ : Type} (body : Int → σ → Option σ) (last : Int) : Nat → Int → σ → Option σ
  | 0, _, _ => none
  | fuel + 1, turn, s =>
    if turn ≤ last then
      (body turn s).bind (fun s1 => forLe body last fuel (wrap_int (turn + 1)) s1)
    else
      some s

/-- The two nested neighbour loops of `update_world` (`d_row` and `d_col` from
`-1` while `≤ 1`, that is `< 1 + 1`; the pair `(0, 0)` skipped by `continue`),
which count the neighbours whose cell in `world_copy` equals `1`; the count stays
at most 8. -/
def count_live_neighbors (world_copy : List Int) (width height row col : Int) :
    Option Int :=
  cFor (-1) (1 + 1) (fun d_row live_neighbors =>
    cFor (-1) (1 + 1) (fun d_col live_neighbors =>
      if d_row = 0 ∧ d_col = 0 then
        some live_neighbors
      else
        let n_row := wrap_int (row + d_row)
        let n_col := wrap_int (col + d_col)
        let n_index := translate_to_1D n_row n_col width height
        (readCell world_copy n_index).bind (fun v =>
          if v = 1 then some (live_neighbors + 1) else some live_neighbors))
      live_neighbors) 0

/-- The body of the column loop of `update_world`: one cell of `world` is
rewritten from `world_copy`. -/
def update_cell (world_copy : List Int) (width height row col : Int)
    (world : List Int) : Option (List Int) :=
  let index := translate_to_1D row col width height
  (count_live_neighbors world_copy width height row col).bind (fun live_neighbors =>
    (readCell world_copy index).bind (fun v =>
      if v = 1 then
        if live_neighbors ≤ 1 ∨ live_neighbors ≥ 4 then
          writeCell world index 0
        else
          writeCell world index 1
      else
        if live_neighbors = 3 then
          writeCell world index 1
        else
          writeCell world index 0))

/-- The function `update_world` of `gol.c`: the rows `start_row ≤ row < end_row`
of `world` are rewritten from `world_copy`.  The result is the new content of
`world`; `world_copy` is only read. -/
def update_world (world world_copy : List Int) (width height start_row end_row : Int) :
    Option (List Int) :=
  cFor start_row end_row (fun row world =>
    cFor 0 width (fun col world => update_cell world_copy width height row col world)
      world) world

/-- The live-cell loop of `initialize_world` (`i` from `0` to
`num_live_cells - 1`): each round reads the pair `c r` with `fscanf` and sets the
cell `translate_to_1D(r, c, num_cols, num_rows)`.  The state is the unread tokens
and the world. -/
def read_live_cells (num_rows num_cols : Int) :
    Nat → List Int × List Int → Option (List Int × List Int)
  | 0, st => some st
  | n + 1, (tokens, world) =>
    match tokens with
    | token_c :: token_r :: rest =>
      let c := wrap_int token_c
      let r := wrap_int token_r
      let index := translate_to_1D r c num_cols num_rows
      (writeCell world index 1).bind (fun world1 =>
        read_live_cells num_rows num_cols n (rest, world1))
    | _ => none

/-- The function `initialize_world` of `gol.c` on the integer tokens of the
configuration file, each stored in an `int` by `fscanf`.  The result is
`(world, num_rows, num_cols)`; it is `none` when the function returns `NULL` (a
token is missing, or `calloc` is asked for a negative size) and when a cell is
set outside the allocated buffer. -/
def initialize_world (tokens : List Int) : Option (List Int × Int × Int) :=
  match tokens with
  | token_rows :: token_cols :: token_live :: rest =>
    let num_rows := wrap_int token_rows
    let num_cols := wrap_int token_cols
    let num_live_cells := wrap_int token_live
    let size := wrap_int (num_rows * num_cols)
    if size < 0 then
      none
    else
      let world := List.replicate size.toNat (0 : Int)
      (read_live_cells num_rows num_cols num_live_cells.toNat (rest, world)).bind
        (fun st => some (st.2, num_rows, num_cols))
  | _ => none

/-! ## barrier.c -/

/-- The counters of `pthread_barrier_t` (`barrier.h`); the mutex and the
condition variable are objects of the thread library and carry no data here. -/
structure pthread_barrier_t where
  count : Int
  tripCount : Int
deriving DecidableEq

/-- The constant `PTHREAD_BARRIER_SERIAL_THREAD` of `barrier.h`. -/
def PTHREAD_BARRIER_SERIAL_THREAD : Int := 1

/-- What `pthread_barrier_init` leaves behind: its return value, whether it set
`errno` to `EINVAL`, and the barrier. -/
structure InitResult where
  rc : Int
  einval : Bool
  barrier : pthread_barrier_t
deriving DecidableEq

/-- The function `pthread_barrier_init` of `barrier.c`.  `count` is the
`unsigned int` party count (below `2^32`), converted to `int` when it is stored in
the field `tripCount`; `mutex_init` and `cond_init` are the return values of
`pthread_mutex_init` and `pthread_cond_init`. -/
def pthread_barrier_init (barrier : pthread_barrier_t) (count : Nat)
    (mutex_init cond_init : Int) : InitResult :=
  if count = 0 then
    ⟨-1, true, barrier⟩
  else if mutex_init ≠ 0 then
    ⟨-1, false, barrier⟩
  else if cond_init ≠ 0 then
    ⟨-1, false, barrier⟩
  else
    ⟨0, false, { barrier with tripCount := wrap_int (count : Int), count := 0 }⟩

/-- The counter update of `pthread_barrier_wait`, done with the mutex held: the
new counters and the value the call returns (a call that takes the `else`
branch returns `0` once it is woken). -/
def pthread_barrier_wait (barrier : pthread_barrier_t) : pthread_barrier_t × Int :=
  let barrier := { barrier with count := wrap_int (barrier.count + 1) }
  if barrier.count ≥ barrier.tripCount then
    ({ barrier with count := 0 }, PTHREAD_BARRIER_SERIAL_THREAD)
  else
    (barrier, 0)

/-- The return values of `n` calls of `pthread_barrier_wait`, listed in the order
in which the calls update the counter. -/
def barrier_returns : Nat → pthread_barrier_t → List Int
  | 0, _ => []
  | n + 1, b => (pthread_barrier_wait b).2 :: barrier_returns n (pthread_barrier_wait b).1

/-- The counters after `n` calls of `pthread_barrier_wait`. -/
def barrier_after : Nat → pthread_barrier_t → pthread_barrier_t
  | 0, b => b
  | n + 1, b => barrier_after n (pthread_barrier_wait b).1

/-! ## main.c -/

/-- The partition loop of `run_threads` (`i` from `0` to `num_threads - 1`): the
pairs `(start_row, end_row)` stored in `thread_data[i]`, in the order of `i`. -/
def partition_loop (rows_per_thread remainder : Int) :
    Nat → Int → Int → List (Int × Int)
  | 0, _, _ => []
  | n + 1, i, start_row =>
    let rows := rows_per_thread + (if i < remainder then 1 else 0)
    (start_row, start_row + rows) ::
      partition_loop rows_per_thread remainder n (i + 1) (start_row + rows)

/-- The row ranges that `run_threads` hands to its threads. -/
def thread_ranges (height num_threads : Int) : List (Int × Int) :=
  let rows_per_thread := Int.tdiv height num_threads
  let remainder := Int.tmod height num_threads
  partition_loop rows_per_thread remainder num_threads.toNat 0 0

/-- The call `memcpy(dst, src, n * sizeof(int))`. -/
def memcpy (dst src : List Int) (n : Int) : Option (List Int) :=
  if 0 ≤ n ∧ n ≤ (src.length : Int) ∧ n ≤ (dst.length : Int) then
    some (src.take n.toNat ++ dst.drop n.toNat)
  else
    none

/-- The two shared buffers and the frames handed to `print_world` so far, each
with its label `turn`. -/
structure SimState where
  world : List Int
  world_copy : List Int
  printed : List (Int × List Int)
deriving DecidableEq

/-- The compute phase of one round: between the first and the second barrier
every thread calls `update_world` on its own range.  `order` lists the thread ids
in the order in which their calls are taken. -/
def compute_phase (world_copy : List Int) (width height : Int)
    (ranges : List (Int × Int)) : List Nat → List Int → Option (List Int)
  | [], world => some world
  | k :: rest, world =>
    match ranges[k]? with
    | none => none
    | some (start_row, end_row) =>
      (update_world world world_copy width height start_row end_row).bind
        (fun world1 => compute_phase world_copy width height ranges rest world1)

/-- One round of the loop of `simulate_world`, for all threads together: thread 0
copies `world` to `world_copy`; after the first barrier every thread updates its
rows if `turn < num_turns`; after the second barrier thread 0 hands `world` and
`turn` to `print_world`; the third barrier ends the round. -/
def simulate_round (width height num_turns : Int) (ranges : List (Int × Int))
    (order : List Nat) (turn : Int) (st : SimState) : Option SimState :=
  (memcpy st.world_copy st.world (wrap_int (width * height))).bind (fun world_copy =>
    (if turn < num_turns then
        compute_phase world_copy width height ranges order st.world
      else
        some st.world).bind (fun world =>
      some { world := world, world_copy := world_copy,
             printed := st.printed ++ [(turn, world)] }))

/-- The loop `for (turn = 0; turn <= num_turns; turn++)` of `simulate_world`, run
by all threads in lockstep.  `sched turn` is the order in which the threads are
taken in the compute phase of round `turn`. -/
def simulate_world (fuel : Nat) (width height num_turns : Int) (ranges : List (Int × Int))
    (sched : Int → List Nat) (st : SimState) : Option SimState :=
  forLe (fun turn st => simulate_round width height num_turns ranges (sched turn) turn st)
    num_turns fuel 0 st

/-- The function `run_threads` of `main.c`: `world_copy` is the uninitialised
buffer that `malloc` returns, the ranges are those of the partition loop, and the
threads run `simulate_world`. -/
def run_threads (fuel : Nat) (world world_copy : List Int)
    (width height num_turns num_threads : Int) (sched : Int → List Nat) : Option SimState :=
  simulate_world fuel width height num_turns (thread_ranges height num_threads) sched
    { world := world, world_copy := world_copy, printed := [] }

/-! ## The specification's vocabulary -/

/-- The index mapping of the specification:
`index(row, col) = ((row mod H) * W) + (col mod W)` with the non-negative
modulus. -/
def spec_index (row col width height : Int) : Int :=
  (row % height) * width + (col % width)

/-- The eight offsets `(d_row, d_col)` of `{-1, 0, 1}²` other than `(0, 0)`. -/
def neighbor_offsets : List (Int × Int) :=
  [(-1, -1), (-1, 0), (-1, 1), (0, -1), (0, 1), (1, -1), (1, 0), (1, 1)]

/-- The number of offsets whose toroidally wrapped cell of `snapshot` is `1`. -/
def live_neighbor_count (snapshot : List Int) (width height row col : Int) : Nat :=
  neighbor_offsets.countP (fun d =>
    decide (readCell snapshot (spec_index (row + d.1) (col + d.2) width height) = some 1))

/-- The birth-on-3 / survive-on-{2,3} table: the next state of a cell that is
alive or not, with `n` live neighbours. -/
def rule_table (alive : Bool) (n : Nat) : Int :=
  if (alive = true ∧ (n = 2 ∨ n = 3)) ∨ (alive = false ∧ n = 3) then 1 else 0

/-- The next state of the cell `(row, col)` of `snapshot` under the table. -/
def next_state (snapshot : List Int) (width height row col : Int) : Int :=
  rule_table (decide (readCell snapshot (row * width + col) = some 1))
    (live_neighbor_count snapshot width height row col)

/-- One generation over the whole grid: `world` is copied to `world_copy` and
`update_world` runs over the rows `[0, height)`. -/
def full_generation (width height : Int) (world : List Int) : Option (List Int) :=
  update_world world world width height 0 height

/-- The grid after `n` whole-grid generations. -/
def generations (width height : Int) : Nat → List Int → Option (List Int)
  | 0, world => some world
  | n + 1, world => (generations width height n world).bind (full_generation width height)

/-- The sizes of a grid on which no sum or product of `translate_to_1D`, on the
coordinates that `update_world` hands it, leaves the `int` range. -/
def GridFits (W H : Int) : Prop :=
  2 * W ≤ INT_MAX ∧ 2 * H ≤ INT_MAX ∧ W * H ≤ INT_MAX

/-- The first row of partition `i` in closed form: `i * base + min(i, extra)`. -/
def range_start (base extra i : Int) : Int :=
  i * base + min i extra

/-- The content `new` of `world` once the cells with flat index `lo ≤ i < hi` of
`old` were rewritten to their next state under `snapshot`: the same length, those
cells replaced, the others kept. -/
def Rewritten (snapshot old new : List Int) (W H lo hi : Int) : Prop :=
  new.length = old.length ∧
    ∀ row col, 0 ≤ row → row < H → 0 ≤ col → col < W →
      readCell new (row * W + col)
        = if lo ≤ row * W + col ∧ row * W + col < hi
          then some (next_state snapshot W H row col)
          else readCell old (row * W + col)

/-- Row `row` lies in the range of one of the threads listed in `order`. -/
def Covered (ranges : List (Int × Int)) (order : List Nat) (row : Int) : Prop :=
  ∃ k a b, k ∈ order ∧ ranges[k]? = some (a, b) ∧ a ≤ row ∧ row < b

/-- What holds of the buffers and the printed frames when round `turn` of the
loop of `simulate_world` starts, on a run of `num_turns` turns from `world0`: the
buffers have the size of the grid, `world` is `world0` after
`min(turn, num_turns)` generations, and frame `j` carries the label `j` and the
grid after `min(j + 1, num_turns)` generations. -/
def LoopInv (W H : Int) (world0 : List Int) (num_turns : Nat) (turn : Int)
    (st : SimState) : Prop :=
  (st.world.length : Int) = W * H ∧ (st.world_copy.length : Int) = W * H ∧
    generations W H (min turn.toNat num_turns) world0 = some st.world ∧
    st.printed.length = turn.toNat ∧
    ∀ j : Nat, j < turn.toNat →
      ∃ g, generations W H (min (j + 1) num_turns) world0 = some g ∧
        st.printed[j]? = some ((j : Int), g)

/-- The 3 × 3 grid whose nine cells, in row-major order, are the given booleans. -/
def grid3 (a b c d e f g h i : Bool) : List Int :=
  [a, b, c, d, e, f, g, h, i].map (fun x => if x = true then 1 else 0)

/-! ## Further vocabulary: the buffers of a call, the events of a thread, the shift -/

/-- The two buffers that `update_world` was handed, after the call: the only
assignments of the function are `world[index] = ...`, so `world_copy` is handed
back as it came. -/
def update_world_buffers (world world_copy : List Int)
    (width height start_row end_row : Int) : Option (List Int × List Int) :=
  (update_world world world_copy width height start_row end_row).bind
    (fun world1 => some (world1, world_copy))

/-- What one thread running `simulate_world` does, as the other threads and the
terminal see it: the `memcpy` of `world` to `world_copy`, a call of
`pthread_barrier_wait`, a call of `update_world` with the thread's range, and the
presentation of a turn (`clear`, `print_world`, then `getch` or `usleep`). -/
inductive Event where
  | copy : Event
  | wait : Event
  | update : Int → Int → Event
  | print : Int → Event
deriving DecidableEq

/-- A call of `pthread_barrier_wait` by a thread and the check after it.  The
state is the events so far and the number of calls so far; `rcs k` is what the
thread's call number `k` returns; `none` is `exit(1)`. -/
def wait_checked (rcs : Nat → Int) (st : List Event × Nat) : Option (List Event × Nat) :=
  let rc := rcs st.2
  if rc ≠ 0 ∧ rc ≠ PTHREAD_BARRIER_SERIAL_THREAD then
    none
  else
    some (st.1 ++ [Event.wait], st.2 + 1)

/-- The body of the loop of `simulate_world`, as one thread runs it. -/
def thread_round (thread_id num_turns start_row end_row : Int) (rcs : Nat → Int)
    (turn : Int) (st : List Event × Nat) : Option (List Event × Nat) :=
  let st1 := if thread_id = 0 then (st.1 ++ [Event.copy], st.2) else st
  (wait_checked rcs st1).bind (fun st2 =>
    let st3 :=
      if turn < num_turns then (st2.1 ++ [Event.update start_row end_row], st2.2) else st2
    (wait_checked rcs st3).bind (fun st4 =>
      let st5 := if thread_id = 0 then (st4.1 ++ [Event.print turn], st4.2) else st4
      wait_checked rcs st5))

/-- The function `simulate_world` of `main.c`, as one thread runs it: the loop
`for (turn = 0; turn <= num_turns; turn++)`.  The result is the events of the
thread and the number of its barrier calls. -/
def simulate_world_thread (fuel : Nat) (thread_id num_turns start_row end_row : Int)
    (rcs : Nat → Int) : Option (List Event × Nat) :=
  forLe (thread_round thread_id num_turns start_row end_row rcs) num_turns fuel 0 ([], 0)

/-- The events of one round of the generation protocol, for one worker: the
leader copies, barrier A, the compute phase unless the round is the last,
barrier B, the leader presents, barrier C. -/
def round_events (thread_id num_turns start_row end_row turn : Int) : List Event :=
  (if thread_id = 0 then [Event.copy] else []) ++ [Event.wait] ++
    (if turn < num_turns then [Event.update start_row end_row] else []) ++ [Event.wait] ++
    (if thread_id = 0 then [Event.print turn] else []) ++ [Event.wait]

/-- What holds of a thread's events when its round `turn` starts. -/
def ThreadInv (thread_id num_turns start_row end_row : Int) (turn : Int)
    (st : List Event × Nat) : Prop :=
  st.1 = (List.range turn.toNat).flatMap
      (fun (j : Nat) => round_events thread_id num_turns start_row end_row (j : Int)) ∧
    st.2 = 3 * turn.toNat ∧
    st.1.count Event.wait = 3 * turn.toNat ∧
    st.1.count (Event.update start_row end_row) = min turn.toNat num_turns.toNat

/-- The grid `g` moved by `(a, b)` on the torus: the cell `(r, c)` of the result
is the cell `((r - a) mod H, (c - b) mod W)` of `g`, so that the cell `(r, c)` of
`g` is moved to `((r + a) mod H, (c + b) mod W)`. -/
def shift_grid (W H a b : Int) (g : List Int) : List Int :=
  (List.range (W * H).toNat).map (fun (i : Nat) =>
    g.getD (spec_index ((i : Int) / W - a) ((i : Int) % W - b) W H).toNat 0)

/-! ## Machine integers -/

theorem wrap_int_eq (x : Int) (h0 : INT_MIN ≤ x) (h1 : x ≤ INT_MAX) : wrap_int x = x := by
  unfold INT_MIN at h0
  unfold INT_MAX at h1
  unfold wrap_int
  omega

theorem le_int_max (x : Int) (h : x ≤ 2147483647) : x ≤ INT_MAX := h

theorem int_min_le (x : Int) (h : -2147483648 ≤ x) : INT_MIN ≤ x := h

theorem GridFits_bounds (W H : Int) (h : GridFits W H) :
    2 * W ≤ 2147483647 ∧ 2 * H ≤ 2147483647 ∧ W * H ≤ 2147483647 := h

theorem wrap_int_le (x : Int) : wrap_int x ≤ INT_MAX := by
  unfold INT_MAX wrap_int
  omega

theorem wrap_int_ge (x : Int) : INT_MIN ≤ wrap_int x := by
  unfold INT_MIN wrap_int
  omega

/-! ## Toroidal addressing -/

theorem tmod_shift (x n : Int) (hn : 0 < n) (hx : -n ≤ x) : Int.tmod (x + n) n = x % n := by
  rw [Int.tmod_eq_emod (by omega) (by omega), Int.add_emod_self]

theorem emod_small (x n : Int) (h0 : 0 ≤ x) (h1 : x < n) : x % n = x :=
  Int.emod_eq_of_lt h0 h1

theorem spec_index_bounds (row col width height : Int) (hw : 0 < width) (hh : 0 < height) :
    0 ≤ spec_index row col width height ∧ spec_index row col width height < width * height := by
  unfold spec_index
  have h1 := Int.emod_nonneg row (show height ≠ 0 by omega)
  have h2 := Int.emod_lt_of_pos row hh
  have h3 := Int.emod_nonneg col (show width ≠ 0 by omega)
  have h4 := Int.emod_lt_of_pos col hw
  constructor
  · positivity
  · nlinarith

theorem spec_index_inside (row col width height : Int) (hr0 : 0 ≤ row) (hr : row < height)
    (hc0 : 0 ≤ col) (hc : col < width) :
    spec_index row col width height = row * width + col := by
  unfold spec_index
  rw [emod_small row height hr0 hr, emod_small col width hc0 hc]

/-- Where no sum leaves the `int` range, `translate_to_1D` is the index mapping of
the specification. -/
theorem translate_to_1D_eq_spec (row col width height : Int) (hw : 0 < width) (hh : 0 < height)
    (hr : -height ≤ row) (hc : -width ≤ col) (hrmax : row + height ≤ INT_MAX)
    (hcmax : col + width ≤ INT_MAX) (hsize : width * height ≤ INT_MAX) :
    translate_to_1D row col width height = spec_index row col width height := by
  have hmin : INT_MIN ≤ 0 := by decide
  have hb := spec_index_bounds row col width height hw hh
  unfold spec_index at hb
  have h1 := Int.emod_nonneg row (show height ≠ 0 by omega)
  have h2 := Int.emod_lt_of_pos row hh
  have h3 := Int.emod_nonneg col (show width ≠ 0 by omega)
  have hprod0 : 0 ≤ row % height * width := by positivity
  have hprod1 : row % height * width ≤ INT_MAX := by omega
  simp only [translate_to_1D, spec_index]
  rw [wrap_int_eq (row + height) (by omega) hrmax, wrap_int_eq (col + width) (by omega) hcmax,
    tmod_shift _ _ hh hr, tmod_shift _ _ hw hc,
    wrap_int_eq (row % height * width) (by omega) hprod1,
    wrap_int_eq (row % height * width + col % width) (by omega) (by omega)]

theorem translate_to_1D_inside (row col width height : Int) (hr0 : 0 ≤ row) (hr : row < height)
    (hc0 : 0 ≤ col) (hc : col < width) (hrmax : row + height ≤ INT_MAX)
    (hcmax : col + width ≤ INT_MAX) (hsize : width * height ≤ INT_MAX) :
    translate_to_1D row col width height = row * width + col := by
  rw [translate_to_1D_eq_spec row col width height (by omega) (by omega) (by omega) (by omega)
    hrmax hcmax hsize]
  exact spec_index_inside row col width height hr0 hr hc0 hc

/-! ## Buffers and loops -/

theorem readCell_some (a : List Int) (i : Int) (h0 : 0 ≤ i) (h1 : i < (a.length : Int)) :
    ∃ v, readCell a i = some v := by
  have hlt : i.toNat < a.length := by omega
  exact ⟨a[i.toNat], by simp [readCell, h0, List.getElem?_eq_getElem hlt]⟩

theorem readCell_writeCell (a b : List Int) (i j v : Int) (h : writeCell a i v = some b)
    (hj : 0 ≤ j) :
    readCell b j = if j = i then some v else readCell a j := by
  unfold writeCell at h
  split at h
  · rename_i hi
    obtain ⟨hi0, hi1⟩ := hi
    injection h with h
    subst h
    have hlt : i.toNat < a.length := by omega
    by_cases hji : j = i
    · subst hji
      simp [readCell, hj, List.getElem?_set, hlt]
    · have hne : i.toNat ≠ j.toNat := by omega
      simp [readCell, hj, hji, List.getElem?_set, hne]
  · exact absurd h (by simp)

theorem writeCell_length (a b : List Int) (i v : Int) (h : writeCell a i v = some b) :
    b.length = a.length := by
  unfold writeCell at h
  split at h
  · injection h with h
    subst h
    simp
  · exact absurd h (by simp)

theorem writeCell_some (a : List Int) (i v : Int) (h0 : 0 ≤ i) (h1 : i < (a.length : Int)) :
    ∃ b, writeCell a i v = some b :=
  ⟨a.set i.toNat v, by simp [writeCell, h0, h1]⟩

theorem forLoop_inv {σ : Type} (body : Int → σ → Option σ) (Inv : Int → σ → Prop) :
    ∀ (n : Nat) (lo : Int) (s : σ), Inv lo s →
      (∀ i t, lo ≤ i → i < lo + (n : Int) → Inv i t →
        ∃ t1, body i t = some t1 ∧ Inv (i + 1) t1) →
      ∃ t, forLoop body n lo s = some t ∧ Inv (lo + (n : Int)) t
  | 0, lo, s, h0, _ => ⟨s, rfl, by simpa using h0⟩
  | n + 1, lo, s, h0, hstep => by
    obtain ⟨t1, hb, hi⟩ := hstep lo s le_rfl (by push_cast; omega) h0
    obtain ⟨t, ht, hinv⟩ := forLoop_inv body Inv n (lo + 1) t1 hi
      (fun i t hlo hhi hI => hstep i t (by omega) (by push_cast; omega) hI)
    refine ⟨t, ?_, ?_⟩
    · simp [forLoop, hb, ht]
    · have harith : lo + 1 + (n : Int) = lo + ((n + 1 : Nat) : Int) := by push_cast; ring
      rwa [harith] at hinv

theorem cFor_inv {σ : Type} (body : Int → σ → Option σ) (Inv : Int → σ → Prop)
    (lo hi : Int) (s : σ) (hle : lo ≤ hi) (h0 : Inv lo s)
    (hstep : ∀ i t, lo ≤ i → i < hi → Inv i t → ∃ t1, body i t = some t1 ∧ Inv (i + 1) t1) :
    ∃ t, cFor lo hi body s = some t ∧ Inv hi t := by
  have hn : lo + ((hi - lo).toNat : Int) = hi := by omega
  obtain ⟨t, ht, hinv⟩ := forLoop_inv body Inv (hi - lo).toNat lo s h0
    (fun i t hlo hlt hI => hstep i t hlo (by omega) hI)
  exact ⟨t, ht, by rwa [hn] at hinv⟩

theorem cFor_empty {σ : Type} (body : Int → σ → Option σ) (lo hi : Int) (s : σ)
    (h : hi ≤ lo) : cFor lo hi body s = some s := by
  have hn : (hi - lo).toNat = 0 := by omega
  simp [cFor, hn, forLoop]

theorem forLe_eq_forLoop {σ : Type} (body : Int → σ → Option σ) (last : Int) :
    ∀ (n fuel : Nat) (first : Int) (s : σ), first + (n : Int) = last + 1 →
      last < INT_MAX → INT_MIN ≤ first → n + 1 ≤ fuel →
      forLe body last fuel first s = forLoop body n first s
  | 0, fuel, first, s, hsum, _, _, hfuel => by
    obtain ⟨f, rfl⟩ : ∃ f, fuel = f + 1 := ⟨fuel - 1, by omega⟩
    have hgt : ¬ first ≤ last := by
      simp only [Nat.cast_zero, add_zero] at hsum
      omega
    simp [forLe, forLoop, hgt]
  | n + 1, fuel, first, s, hsum, hlast, hfirst, hfuel => by
    obtain ⟨f, rfl⟩ : ∃ f, fuel = f + 1 := ⟨fuel - 1, by omega⟩
    have hle : first ≤ last := by
      push_cast at hsum
      omega
    have hwrap : wrap_int (first + 1) = first + 1 :=
      wrap_int_eq (first + 1) (by omega) (by omega)
    simp only [forLe, forLoop, if_pos hle, hwrap]
    cases hb : body first s with
    | none => rfl
    | some s1 =>
      simp only [Option.some_bind, Option.bind_some]
      exact forLe_eq_forLoop body last n f (first + 1) s1 (by push_cast at hsum; omega)
        hlast (by omega) (by omega)

/-- With enough fuel and `last < INT_MAX`, the loop `turn <= last` from `0` is the
counted loop over `0 .. last`. -/
theorem forLe_eq_cFor {σ : Type} (body : Int → σ → Option σ) (last : Int) (fuel : Nat)
    (s : σ) (h0 : 0 ≤ last) (hlast : last < INT_MAX) (hfuel : last.toNat + 2 ≤ fuel) :
    forLe body last fuel 0 s = cFor 0 (last + 1) body s := by
  unfold cFor
  exact forLe_eq_forLoop body last (last + 1 - 0).toNat fuel 0 s (by omega) hlast
    (by decide) (by omega)

/-- For `last = INT_MAX` the condition `turn <= last` holds of every `int`: the
loop returns on no fuel. -/
theorem forLe_int_max_none {σ : Type} (body : Int → σ → Option σ) :
    ∀ (fuel : Nat) (turn : Int) (s : σ), turn ≤ INT_MAX →
      forLe body INT_MAX fuel turn s = none
  | 0, _, _, _ => rfl
  | fuel + 1, turn, s, hle => by
    simp only [forLe, if_pos hle]
    cases hb : body turn s with
    | none => rfl
    | some s1 =>
      simp only [Option.some_bind, Option.bind_some]
      exact forLe_int_max_none body fuel _ s1 (wrap_int_le _)

/-! ## One cell of `update_world` -/

theorem neighbor_step (copy : List Int) (W H row col : Int) (hW : 0 < W) (hH : 0 < H)
    (hfit : GridFits W H) (hlen : (copy.length : Int) = W * H) (hr0 : 0 ≤ row) (hr : row < H)
    (hc0 : 0 ≤ col) (hc : col < W) (d_row d_col acc : Int) (h1 : -1 ≤ d_row)
    (h1u : d_row ≤ 1) (h2 : -1 ≤ d_col) (h2u : d_col ≤ 1) :
    (if d_row = 0 ∧ d_col = 0 then some acc
      else (readCell copy
          (translate_to_1D (wrap_int (row + d_row)) (wrap_int (col + d_col)) W H)).bind
        (fun v => if v = 1 then some (acc + 1) else some acc))
    = some (acc + if d_row = 0 ∧ d_col = 0 then 0
        else if readCell copy (spec_index (row + d_row) (col + d_col) W H) = some 1
          then 1 else 0) := by
  obtain ⟨hf1, hf2, hf3⟩ := GridFits_bounds W H hfit
  by_cases h0 : d_row = 0 ∧ d_col = 0
  · simp [h0]
  · rw [if_neg h0, if_neg h0,
      wrap_int_eq (row + d_row) (int_min_le _ (by omega)) (le_int_max _ (by omega)),
      wrap_int_eq (col + d_col) (int_min_le _ (by omega)) (le_int_max _ (by omega)),
      translate_to_1D_eq_spec _ _ W H hW hH (by omega) (by omega) (le_int_max _ (by omega))
        (le_int_max _ (by omega)) (le_int_max _ hf3)]
    have hb := spec_index_bounds (row + d_row) (col + d_col) W H hW hH
    obtain ⟨v, hv⟩ := readCell_some copy _ hb.1 (by omega)
    rw [hv]
    by_cases hv1 : v = 1 <;> simp [hv1]

theorem count_live_neighbors_eq (copy : List Int) (W H row col : Int) (hW : 0 < W)
    (hH : 0 < H) (hfit : GridFits W H) (hlen : (copy.length : Int) = W * H) (hr0 : 0 ≤ row)
    (hr : row < H) (hc0 : 0 ≤ col) (hc : col < W) :
    count_live_neighbors copy W H row col
      = some ((live_neighbor_count copy W H row col : Nat) : Int) := by
  have key := neighbor_step copy W H row col hW hH hfit hlen hr0 hr hc0 hc
  have hn : ((1 : Int) + 1 - -1).toNat = 3 := by decide
  simp only [count_live_neighbors, cFor, hn, forLoop]
  simp (disch := norm_num) only [key, Option.some_bind, Option.bind_some]
  simp only [live_neighbor_count, neighbor_offsets, List.countP_cons, List.countP_nil]
  norm_num
  ring

theorem update_cell_eq (copy world : List Int) (W H row col : Int) (hW : 0 < W)
    (hH : 0 < H) (hfit : GridFits W H) (hlen : (copy.length : Int) = W * H) (hr0 : 0 ≤ row) (hr : row < H)
    (hc0 : 0 ≤ col) (hc : col < W) :
    update_cell copy W H row col world
      = writeCell world (row * W + col) (next_state copy W H row col) := by
  obtain ⟨hf1, hf2, hf3⟩ := GridFits_bounds W H hfit
  have hidx := translate_to_1D_inside row col W H hr0 hr hc0 hc (le_int_max _ (by omega))
    (le_int_max _ (by omega)) (le_int_max _ hf3)
  have hb : row * W + col < W * H := by nlinarith
  have hb0 : 0 ≤ row * W + col := by positivity
  obtain ⟨v, hv⟩ := readCell_some copy (row * W + col) hb0 (by omega)
  simp only [update_cell, hidx, count_live_neighbors_eq copy W H row col hW hH hfit hlen hr0 hr hc0 hc,
    Option.some_bind, Option.bind_some, hv, next_state, rule_table]
  generalize live_neighbor_count copy W H row col = n
  by_cases hv1 : v = 1
  · by_cases h2 : n = 2
    · simp [hv1, h2]
    · by_cases h3 : n = 3
      · simp [hv1, h3]
      · simp [hv1, h2, h3]
        intro h1 h4
        exfalso
        omega
  · by_cases h3 : n = 3
    · simp [hv1, h3]
    · have h3i : ¬ ((n : Int) = 3) := by omega
      simp [hv1, h3, h3i]

/-! ## The loops of `update_world` -/

theorem flat_inj (W r1 c1 r2 c2 : Int) (hc1 : 0 ≤ c1) (hc1W : c1 < W) (hc2 : 0 ≤ c2)
    (hc2W : c2 < W) (h : r1 * W + c1 = r2 * W + c2) : r1 = r2 ∧ c1 = c2 := by
  have hr : r1 = r2 := by
    rcases lt_trichotomy r1 r2 with hlt | heq | hgt
    · exfalso
      have : (r2 - r1 - 1) * W ≥ 0 := mul_nonneg (by omega) (by omega)
      nlinarith
    · exact heq
    · exfalso
      have : (r1 - r2 - 1) * W ≥ 0 := mul_nonneg (by omega) (by omega)
      nlinarith
  subst hr
  exact ⟨rfl, by omega⟩

theorem flat_row_bounds (W s e row col : Int) (hc0 : 0 ≤ col) (hc : col < W) :
    (s * W ≤ row * W + col ∧ row * W + col < e * W) ↔ (s ≤ row ∧ row < e) := by
  have hW : 0 < W := by omega
  constructor
  · rintro ⟨h1, h2⟩
    constructor
    · by_contra hlt
      have : (s - row - 1) * W ≥ 0 := mul_nonneg (by omega) (by omega)
      nlinarith
    · by_contra hge
      have : (row - e) * W ≥ 0 := mul_nonneg (by omega) (by omega)
      nlinarith
  · rintro ⟨h1, h2⟩
    constructor
    · have : (row - s) * W ≥ 0 := mul_nonneg (by omega) (by omega)
      nlinarith
    · have : (e - row - 1) * W ≥ 0 := mul_nonneg (by omega) (by omega)
      nlinarith

theorem Rewritten_refl (copy w : List Int) (W H lo : Int) : Rewritten copy w w W H lo lo := by
  refine ⟨rfl, fun row col _ _ _ _ => ?_⟩
  rw [if_neg (by omega)]

theorem Rewritten_trans (copy a b c : List Int) (W H lo mid hi : Int) (h1 : lo ≤ mid)
    (h2 : mid ≤ hi) (hab : Rewritten copy a b W H lo mid) (hbc : Rewritten copy b c W H mid hi) :
    Rewritten copy a c W H lo hi := by
  refine ⟨hbc.1.trans hab.1, fun row col hr0 hr hc0 hc => ?_⟩
  rw [hbc.2 row col hr0 hr hc0 hc, hab.2 row col hr0 hr hc0 hc]
  by_cases hA : lo ≤ row * W + col ∧ row * W + col < mid
  · rw [if_pos hA, if_pos (show lo ≤ row * W + col ∧ row * W + col < hi by omega)]
    simp
  · by_cases hB : mid ≤ row * W + col ∧ row * W + col < hi
    · rw [if_pos hB, if_pos (show lo ≤ row * W + col ∧ row * W + col < hi by omega)]
    · rw [if_neg hB, if_neg hA, if_neg (show ¬ (lo ≤ row * W + col ∧ row * W + col < hi) by omega)]

theorem Rewritten_step (copy w : List Int) (W H row col : Int) (hW : 0 < W) (hH : 0 < H)
    (hfit : GridFits W H) (hlen : (copy.length : Int) = W * H) (hwlen : (w.length : Int) = W * H)
    (hr0 : 0 ≤ row) (hr : row < H) (hc0 : 0 ≤ col) (hc : col < W) :
    ∃ w1, update_cell copy W H row col w = some w1 ∧
      Rewritten copy w w1 W H (row * W + col) (row * W + col + 1) := by
  have hb : row * W + col < W * H := by nlinarith
  have hb0 : 0 ≤ row * W + col := by positivity
  rw [update_cell_eq copy w W H row col hW hH hfit hlen hr0 hr hc0 hc]
  obtain ⟨w1, hw1⟩ := writeCell_some w (row * W + col) (next_state copy W H row col) hb0
    (by omega)
  refine ⟨w1, hw1, writeCell_length _ _ _ _ hw1, fun r c hr0' hr' hc0' hc' => ?_⟩
  rw [readCell_writeCell w w1 _ _ _ hw1 (by positivity)]
  by_cases heq : r * W + c = row * W + col
  · obtain ⟨e1, e2⟩ := flat_inj W r c row col hc0' hc' hc0 hc heq
    subst e1 e2
    simp
  · rw [if_neg heq, if_neg (by omega)]

theorem update_world_rewritten (world copy : List Int) (W H s e : Int) (hW : 0 < W)
    (hH : 0 < H) (hfit : GridFits W H) (hwlen : (world.length : Int) = W * H) (hlen : (copy.length : Int) = W * H)
    (hs : 0 ≤ s) (hse : s ≤ e) (he : e ≤ H) :
    ∃ w1, update_world world copy W H s e = some w1 ∧
      Rewritten copy world w1 W H (s * W) (e * W) := by
  unfold update_world
  refine cFor_inv _ (fun r w => Rewritten copy world w W H (s * W) (r * W)) s e world hse
    (Rewritten_refl copy world W H (s * W)) ?_
  intro row w hlo hhi hI
  have hwl : (w.length : Int) = W * H := by rw [hI.1]; exact hwlen
  obtain ⟨w1, hw1, hR⟩ := cFor_inv
    (fun col world => update_cell copy W H row col world)
    (fun c w1 => Rewritten copy w w1 W H (row * W) (row * W + c)) 0 W w (by omega)
    (by simpa using Rewritten_refl copy w W H (row * W))
    (by
      intro col t hc0 hc hIt
      have htl : (t.length : Int) = W * H := by rw [hIt.1]; exact hwl
      obtain ⟨t1, ht1, hstep⟩ := Rewritten_step copy t W H row col hW hH hfit hlen htl
        (by omega) (by omega) hc0 hc
      refine ⟨t1, ht1, ?_⟩
      have := Rewritten_trans copy w t t1 W H (row * W) (row * W + col) (row * W + col + 1)
        (by omega) (by omega) hIt hstep
      rwa [add_assoc] at this)
  refine ⟨w1, hw1, ?_⟩
  have hrw : (row + 1) * W = row * W + W := by ring
  show Rewritten copy world w1 W H (s * W) ((row + 1) * W)
  rw [hrw]
  have hsr : s * W ≤ row * W := by
    have : (row - s) * W ≥ 0 := mul_nonneg (by omega) (by omega)
    nlinarith
  exact Rewritten_trans copy world w w1 W H (s * W) (row * W) (row * W + W) hsr (by omega) hI hR

theorem update_world_cell (world copy : List Int) (W H s e : Int) (hW : 0 < W)
    (hH : 0 < H) (hfit : GridFits W H) (hwlen : (world.length : Int) = W * H) (hlen : (copy.length : Int) = W * H)
    (hs : 0 ≤ s) (hse : s ≤ e) (he : e ≤ H) :
    ∃ w1, update_world world copy W H s e = some w1 ∧ w1.length = world.length ∧
      ∀ row col, 0 ≤ row → row < H → 0 ≤ col → col < W →
        readCell w1 (row * W + col)
          = if s ≤ row ∧ row < e then some (next_state copy W H row col)
            else readCell world (row * W + col) := by
  obtain ⟨w1, hw1, hlen1, hR⟩ := update_world_rewritten world copy W H s e hW hH hfit hwlen hlen
    hs hse he
  refine ⟨w1, hw1, hlen1, fun row col hr0 hr hc0 hc => ?_⟩
  rw [hR row col hr0 hr hc0 hc]
  by_cases hin : s ≤ row ∧ row < e
  · rw [if_pos hin, if_pos ((flat_row_bounds W s e row col hc0 hc).2 hin)]
  · rw [if_neg hin, if_neg (fun h => hin ((flat_row_bounds W s e row col hc0 hc).1 h))]

theorem rule_table_spec (alive : Prop) [Decidable alive] (n : Nat) :
    (rule_table (decide alive) n = 0 ∨ rule_table (decide alive) n = 1) ∧
      (rule_table (decide alive) n = 1 ↔ (alive ∧ (n = 2 ∨ n = 3)) ∨ (¬ alive ∧ n = 3)) := by
  unfold rule_table
  by_cases ha : alive <;> by_cases h2 : n = 2 <;> by_cases h3 : n = 3 <;> simp [ha, h2, h3]

theorem next_state_grid3 (a b c d e f g h i : Bool) :
    next_state (grid3 a b c d e f g h i) 3 3 1 1
      = rule_table e ([a, b, c, d, f, g, h, i].count true) := by
  cases a <;> cases b <;> cases c <;> cases d <;> cases e <;> cases f <;> cases g <;>
    cases h <;> cases i <;> rfl

/-! ## Grids on which `translate_to_1D` leaves the `int` range -/

/-- On the grid of one column and `2^30 + 1` rows, the row after `2^30 - 1` plus
the height is `2^31`: the neighbour loops read at a negative index. -/
theorem count_live_neighbors_row_overflow (copy : List Int) :
    count_live_neighbors copy 1 1073741825 1073741823 0 = none := by
  have hn : ((1 : Int) + 1 - -1).toNat = 3 := by decide
  have t1 : translate_to_1D (wrap_int (1073741823 + -1)) (wrap_int (0 + -1)) 1 1073741825
      = 1073741822 := by decide
  have t2 : translate_to_1D (wrap_int (1073741823 + -1)) (wrap_int (0 + (-1 + 1))) 1 1073741825
      = 1073741822 := by decide
  have t3 : translate_to_1D (wrap_int (1073741823 + -1)) (wrap_int (0 + (-1 + 1 + 1))) 1
      1073741825 = 1073741822 := by decide
  have t4 : translate_to_1D (wrap_int (1073741823 + (-1 + 1))) (wrap_int (0 + -1)) 1 1073741825
      = -1073741823 := by decide
  have r4 : readCell copy (-1073741823) = none := by simp [readCell]
  simp only [count_live_neighbors, cFor, hn, forLoop, t1, t2, t3, t4, r4]
  cases h : readCell copy 1073741822 with
  | none => simp
  | some v => simp

theorem update_world_row_overflow (world copy : List Int) :
    update_world world copy 1 1073741825 1073741823 1073741824 = none := by
  have h1 : ((1073741824 : Int) - 1073741823).toNat = 1 := by decide
  have h2 : ((1 : Int) - 0).toNat = 1 := by decide
  simp only [update_world, cFor, h1, h2, forLoop, update_cell,
    count_live_neighbors_row_overflow, Option.none_bind, Option.bind_none]

/-- On the grid of one row and `2^31 - 1` columns, the column after `0` plus the
width is `2^31`: the neighbour loops of the first cell read at index `-1`. -/
theorem count_live_neighbors_col_overflow (copy : List Int) :
    count_live_neighbors copy 2147483647 1 0 0 = none := by
  have hn : ((1 : Int) + 1 - -1).toNat = 3 := by decide
  have t1 : translate_to_1D (wrap_int (0 + -1)) (wrap_int (0 + -1)) 2147483647 1
      = 2147483646 := by decide
  have t2 : translate_to_1D (wrap_int (0 + -1)) (wrap_int (0 + (-1 + 1))) 2147483647 1
      = 0 := by decide
  have t3 : translate_to_1D (wrap_int (0 + -1)) (wrap_int (0 + (-1 + 1 + 1))) 2147483647 1
      = -1 := by decide
  have r3 : readCell copy (-1) = none := by simp [readCell]
  simp only [count_live_neighbors, cFor, hn, forLoop, t1, t2, t3, r3]
  cases h : readCell copy 2147483646 with
  | none => simp
  | some v =>
    cases h0 : readCell copy 0 with
    | none => simp
    | some v0 => simp

theorem forLoop_first_none {σ : Type} (body : Int → σ → Option σ) (n : Nat) (i : Int) (s : σ)
    (h : body i s = none) : forLoop body (n + 1) i s = none := by
  simp [forLoop, h]

theorem update_world_col_overflow (world copy : List Int) :
    update_world world copy 2147483647 1 0 1 = none := by
  have h1 : ((1 : Int) - 0).toNat = 0 + 1 := by decide
  have h2 : ((2147483647 : Int) - 0).toNat = 2147483646 + 1 := by decide
  unfold update_world cFor
  rw [h1]
  apply forLoop_first_none
  show cFor 0 2147483647 (fun col world => update_cell copy 2147483647 1 0 col world) world
    = none
  unfold cFor
  rw [h2]
  apply forLoop_first_none
  simp only [update_cell, count_live_neighbors_col_overflow, Option.none_bind,
    Option.bind_none]

/-! ## Claims on `translate_to_1D` and `update_world` -/

/-- C7, as stated, fails on the grid of one column and `2^30 + 1` rows, whose
size is within the `int` range: `translate_to_1D(-1, 0, W, H)` is the last row,
`2^30`, but in `translate_to_1D(H-1, 0, W, H)` the sum `(H - 1) + H` is `2^31 + 1`,
which an `int` holds as `-(2^31 - 1)`, and the result is `-1073741822`. -/
theorem translate_to_1D_edge_overflow :
    1 * 1073741825 ≤ INT_MAX ∧
      translate_to_1D (-1) 0 1 1073741825 = 1073741824 ∧
      translate_to_1D (1073741825 - 1) 0 1 1073741825 = -1073741822 := by
  decide

/-- C7, amended. For all `W, H ≥ 1` with `2 * H - 1 ≤ INT_MAX`, `2 * W - 1 ≤ INT_MAX`
and `W * H ≤ INT_MAX`, `translate_to_1D(-1, 0, W, H)` equals
`translate_to_1D(H-1, 0, W, H)` and `translate_to_1D(0, -1, W, H)` equals
`translate_to_1D(0, W-1, W, H)`: the row above the first is the last row, the
column left of the first is the last column. -/
theorem translate_to_1D_wraps_edges (W H : Int) (hW : 1 ≤ W) (hH : 1 ≤ H)
    (hH2 : 2 * H - 1 ≤ INT_MAX) (hW2 : 2 * W - 1 ≤ INT_MAX) (hWH : W * H ≤ INT_MAX) :
    translate_to_1D (-1) 0 W H = translate_to_1D (H - 1) 0 W H ∧
      translate_to_1D 0 (-1) W H = translate_to_1D 0 (W - 1) W H := by
  have hH3 : 2 * H - 1 ≤ 2147483647 := hH2
  have hW3 : 2 * W - 1 ≤ 2147483647 := hW2
  have e1 := translate_to_1D_eq_spec (-1) 0 W H (by omega) (by omega) (by omega) (by omega)
    (le_int_max _ (by omega)) (le_int_max _ (by omega)) hWH
  have e2 := translate_to_1D_eq_spec 0 (-1) W H (by omega) (by omega) (by omega) (by omega)
    (le_int_max _ (by omega)) (le_int_max _ (by omega)) hWH
  have e3 := translate_to_1D_inside (H - 1) 0 W H (by omega) (by omega) le_rfl (by omega)
    (le_int_max _ (by omega)) (le_int_max _ (by omega)) hWH
  have e4 := translate_to_1D_inside 0 (W - 1) W H le_rfl (by omega) (by omega) (by omega)
    (le_int_max _ (by omega)) (le_int_max _ (by omega)) hWH
  have m1 : (-1 : Int) % H = H - 1 := by
    have h := emod_small (-1 + H) H (by omega) (by omega)
    rw [Int.add_emod_self] at h
    omega
  have m2 : (-1 : Int) % W = W - 1 := by
    have h := emod_small (-1 + W) W (by omega) (by omega)
    rw [Int.add_emod_self] at h
    omega
  have z1 : (0 : Int) % W = 0 := Int.zero_emod W
  have z2 : (0 : Int) % H = 0 := Int.zero_emod H
  rw [e1, e2, e3, e4]
  simp only [spec_index, m1, m2, z1, z2]
  exact ⟨trivial, trivial⟩

theorem translate_to_1D_wraps_edges_witness :
    translate_to_1D (-1) 0 4 3 = translate_to_1D (3 - 1) 0 4 3 ∧
      translate_to_1D 0 (-1) 4 3 = translate_to_1D 0 (4 - 1) 4 3 :=
  translate_to_1D_wraps_edges 4 3 (by decide) (by decide) (by decide) (by decide) (by decide)

/-- C8, at the failing input. On a 3 × 3 grid `translate_to_1D(-4, 0, 3, 3)` is
`-3`, which is no index of the buffer, while the index mapping of the
specification gives `6`; and `initialize_world` on the tokens `3 3 1 0 -4`, which
passes that row to `translate_to_1D`, writes outside the buffer. -/
theorem translate_to_1D_row_below_neg_height :
    translate_to_1D (-4) 0 3 3 = -3 ∧ spec_index (-4) 0 3 3 = 6 ∧
      initialize_world [3, 3, 1, 0, -4] = none := by
  decide

/-- C2, as stated, fails on the grid of one column and `2^30 + 1` rows (buffers
of `W * H` cells, the row range `[2^30 - 1, 2^30)`): for the neighbour in the same
row `row + height` is `2^31`, an `int` holds `-2^31`, and `update_world` reads
`world_copy[-1073741823]`. -/
theorem update_world_row_range_overflow :
    ((List.replicate 1073741825 (0 : Int)).length : Int) = 1 * 1073741825 ∧
      (0 : Int) ≤ 1073741823 ∧ (1073741823 : Int) ≤ 1073741824 ∧
      (1073741824 : Int) ≤ 1073741825 ∧
      update_world (List.replicate 1073741825 0) (List.replicate 1073741825 0)
        1 1073741825 1073741823 1073741824 = none :=
  ⟨by rw [List.length_replicate]; rfl, by decide, by decide, by decide,
    update_world_row_overflow _ _⟩

/-- C2, amended. For `W, H ≥ 1` with `2 * W ≤ INT_MAX`, `2 * H ≤ INT_MAX` and
`W * H ≤ INT_MAX`, buffers of `W * H` cells and `0 ≤ start_row ≤ end_row ≤ H`,
`update_world` returns, and every cell `(row, col)` of the range then holds `0`
or `1` in `world`, and holds `1` iff the snapshot cell is `1` with two or three
live neighbours, or is not `1` with exactly three, the live neighbours counted
over the eight toroidally wrapped offsets.  In particular, for each of the 512
boolean 3 × 3 neighbourhoods the computed state of the centre is that of the
birth-on-3 / survive-on-{2,3} table. -/
theorem update_world_birth_survive :
    (∀ (world world_copy : List Int) (W H start_row end_row : Int),
      1 ≤ W → 1 ≤ H → 2 * W ≤ INT_MAX → 2 * H ≤ INT_MAX → W * H ≤ INT_MAX →
      (world.length : Int) = W * H → (world_copy.length : Int) = W * H →
      0 ≤ start_row → start_row ≤ end_row → end_row ≤ H →
      ∃ w1, update_world world world_copy W H start_row end_row = some w1 ∧
        ∀ row col, start_row ≤ row → row < end_row → 0 ≤ col → col < W →
          ∃ v, readCell w1 (row * W + col) = some v ∧ (v = 0 ∨ v = 1) ∧
            (v = 1 ↔
              (readCell world_copy (row * W + col) = some 1 ∧
                (live_neighbor_count world_copy W H row col = 2 ∨
                  live_neighbor_count world_copy W H row col = 3)) ∨
              (¬ readCell world_copy (row * W + col) = some 1 ∧
                live_neighbor_count world_copy W H row col = 3))) ∧
    (∀ a b c d e f g h i : Bool,
      ∃ w1, update_world (grid3 a b c d e f g h i) (grid3 a b c d e f g h i) 3 3 0 3 = some w1 ∧
        readCell w1 4 = some (rule_table e ([a, b, c, d, f, g, h, i].count true))) := by
  constructor
  · intro world copy W H s e hW hH hW2 hH2 hWH hwlen hlen hs hse he
    obtain ⟨w1, hw1, _, hcell⟩ := update_world_cell world copy W H s e (by omega) (by omega)
      ⟨hW2, hH2, hWH⟩ hwlen hlen hs hse he
    refine ⟨w1, hw1, fun row col hr0 hr hc0 hc => ?_⟩
    refine ⟨next_state copy W H row col, ?_, ?_⟩
    · rw [hcell row col (by omega) (by omega) hc0 hc, if_pos ⟨hr0, hr⟩]
    · exact rule_table_spec (readCell copy (row * W + col) = some 1)
        (live_neighbor_count copy W H row col)
  · intro a b c d e f g h i
    obtain ⟨w1, hw1, _, hcell⟩ := update_world_cell (grid3 a b c d e f g h i)
      (grid3 a b c d e f g h i) 3 3 0 3 (by decide) (by decide)
      ⟨by decide, by decide, by decide⟩ (by simp [grid3])
      (by simp [grid3]) le_rfl (by decide) le_rfl
    refine ⟨w1, hw1, ?_⟩
    have h4 := hcell 1 1 (by decide) (by decide) (by decide) (by decide)
    rw [if_pos (by decide)] at h4
    rw [← next_state_grid3 a b c d e f g h i, ← h4]
    rfl

theorem update_world_birth_survive_witness :
    ∃ w1, update_world [0, 1, 0, 0, 1, 0, 0, 1, 0, 0, 0, 0] [0, 1, 0, 0, 1, 0, 0, 1, 0, 0, 0, 0]
        3 4 1 3 = some w1 ∧
      ∀ row col, (1 : Int) ≤ row → row < 3 → 0 ≤ col → col < (3 : Int) →
        ∃ v, readCell w1 (row * 3 + col) = some v ∧ (v = 0 ∨ v = 1) ∧
          (v = 1 ↔
            (readCell [0, 1, 0, 0, 1, 0, 0, 1, 0, 0, 0, 0] (row * 3 + col) = some 1 ∧
              (live_neighbor_count [0, 1, 0, 0, 1, 0, 0, 1, 0, 0, 0, 0] 3 4 row col = 2 ∨
                live_neighbor_count [0, 1, 0, 0, 1, 0, 0, 1, 0, 0, 0, 0] 3 4 row col = 3)) ∨
            (¬ readCell [0, 1, 0, 0, 1, 0, 0, 1, 0, 0, 0, 0] (row * 3 + col) = some 1 ∧
              live_neighbor_count [0, 1, 0, 0, 1, 0, 0, 1, 0, 0, 0, 0] 3 4 row col = 3)) :=
  update_world_birth_survive.1 [0, 1, 0, 0, 1, 0, 0, 1, 0, 0, 0, 0]
    [0, 1, 0, 0, 1, 0, 0, 1, 0, 0, 0, 0] 3 4 1 3 (by decide) (by decide) (by decide)
    (by decide) (by decide) (by decide) (by decide) (by decide) (by decide) (by decide)

/-! ## The partition of the rows -/

theorem range_start_succ (base extra i : Int) :
    range_start base extra (i + 1)
      = range_start base extra i + (base + if i < extra then 1 else 0) := by
  unfold range_start
  have h : (i + 1) * base = i * base + base := by ring
  rw [h]
  split <;> omega

theorem partition_loop_length (base extra : Int) :
    ∀ (n : Nat) (i start : Int), (partition_loop base extra n i start).length = n
  | 0, _, _ => rfl
  | n + 1, i, start => by
    simp [partition_loop, partition_loop_length base extra n]

theorem partition_loop_getElem (base extra : Int) :
    ∀ (n : Nat) (i : Int) (k : Nat), k < n →
      (partition_loop base extra n i (range_start base extra i))[k]?
        = some (range_start base extra (i + k), range_start base extra (i + k + 1))
  | 0, _, k, hk => absurd hk (Nat.not_lt_zero k)
  | n + 1, i, 0, _ => by
    simp [partition_loop, range_start_succ]
  | n + 1, i, k + 1, hk => by
    have ih := partition_loop_getElem base extra n (i + 1) k (by omega)
    simp only [partition_loop, List.getElem?_cons_succ, ← range_start_succ]
    rw [ih]
    have e1 : i + 1 + (k : Int) = i + ((k + 1 : Nat) : Int) := by push_cast; ring
    rw [e1]

theorem range_start_mono (base extra i j : Int) (hb : 0 ≤ base) (hij : i ≤ j) :
    range_start base extra i ≤ range_start base extra j := by
  unfold range_start
  have h1 : i * base ≤ j * base := mul_le_mul_of_nonneg_right hij hb
  have h2 : min i extra ≤ min j extra := min_le_min_right extra hij
  omega

/-- The quotient and the remainder that `run_threads` computes. -/
theorem div_mod_facts (H P : Int) (hH : 0 ≤ H) (hP : 1 ≤ P) :
    0 ≤ Int.tdiv H P ∧ 0 ≤ Int.tmod H P ∧ Int.tmod H P < P ∧
      P * Int.tdiv H P + Int.tmod H P = H := by
  rw [Int.tdiv_eq_ediv hH (by omega), Int.tmod_eq_emod hH (by omega)]
  refine ⟨Int.ediv_nonneg hH (by omega), Int.emod_nonneg H (by omega),
    Int.emod_lt_of_pos H (by omega), ?_⟩
  have := Int.emod_add_ediv H P
  omega

theorem thread_ranges_length (H P : Int) :
    (thread_ranges H P).length = P.toNat := by
  simp [thread_ranges, partition_loop_length]

theorem thread_ranges_getElem (H P : Int) (hH : 0 ≤ H) (hP : 1 ≤ P) (k : Nat)
    (hk : k < P.toNat) :
    (thread_ranges H P)[k]?
      = some (range_start (Int.tdiv H P) (Int.tmod H P) k,
          range_start (Int.tdiv H P) (Int.tmod H P) (k + 1)) := by
  obtain ⟨_, hrem, _, _⟩ := div_mod_facts H P hH hP
  have hz : range_start (Int.tdiv H P) (Int.tmod H P) 0 = 0 := by
    unfold range_start
    omega
  have h := partition_loop_getElem (Int.tdiv H P) (Int.tmod H P) P.toNat 0 k hk
  simp only [zero_add, hz] at h
  exact h

theorem range_start_zero (H P : Int) (hH : 0 ≤ H) (hP : 1 ≤ P) :
    range_start (Int.tdiv H P) (Int.tmod H P) 0 = 0 := by
  obtain ⟨_, hrem, _, _⟩ := div_mod_facts H P hH hP
  unfold range_start
  omega

theorem range_start_last (H P : Int) (hH : 0 ≤ H) (hP : 1 ≤ P) :
    range_start (Int.tdiv H P) (Int.tmod H P) P = H := by
  obtain ⟨_, hrem, hlt, hsum⟩ := div_mod_facts H P hH hP
  unfold range_start
  rw [min_eq_right (by omega)]
  exact hsum

theorem range_start_cover (base extra : Int) (hb : 0 ≤ base) (r : Int) :
    ∀ n : Nat, range_start base extra 0 ≤ r → r < range_start base extra n →
      ∃ k : Nat, k < n ∧ range_start base extra k ≤ r ∧ r < range_start base extra (k + 1)
  | 0, h0, h1 => by
    exfalso
    simp only [Nat.cast_zero] at h1
    omega
  | n + 1, h0, h1 => by
    by_cases hr : r < range_start base extra n
    · obtain ⟨k, hk, hk1, hk2⟩ := range_start_cover base extra hb r n h0 hr
      exact ⟨k, by omega, hk1, hk2⟩
    · refine ⟨n, by omega, by omega, ?_⟩
      simpa using h1

theorem thread_ranges_of_getElem (H P : Int) (hH : 0 ≤ H) (hP : 1 ≤ P) (k : Nat) (a b : Int)
    (h : (thread_ranges H P)[k]? = some (a, b)) :
    k < P.toNat ∧ a = range_start (Int.tdiv H P) (Int.tmod H P) k ∧
      b = range_start (Int.tdiv H P) (Int.tmod H P) (k + 1) := by
  have hk : k < P.toNat := by
    by_contra hge
    rw [List.getElem?_eq_none (by rw [thread_ranges_length]; omega)] at h
    exact absurd h (by simp)
  rw [thread_ranges_getElem H P hH hP k hk] at h
  injection h with h
  injection h with h1 h2
  exact ⟨hk, h1.symm, h2.symm⟩

/-- C1. For `H ≥ 1` and `1 ≤ P ≤ H` the partition loop of `run_threads` yields `P`
ranges `[start_i, end_i)` with `0 ≤ start_i < end_i ≤ H`; the first starts at `0`,
each next one starts where the previous ends, the last ends at `H`; two
different ranges share no row, every row of `[0, H)` lies in a range, and two
range sizes differ by at most 1. -/
theorem thread_ranges_partition (H P : Int) (hH : 1 ≤ H) (hP : 1 ≤ P) (hPH : P ≤ H) :
    (thread_ranges H P).length = P.toNat ∧
    (∀ (i : Nat) (a b : Int), (thread_ranges H P)[i]? = some (a, b) →
      0 ≤ a ∧ a < b ∧ b ≤ H) ∧
    (∃ b, (thread_ranges H P)[0]? = some (0, b)) ∧
    (∀ (i : Nat) (a b c d : Int), (thread_ranges H P)[i]? = some (a, b) →
      (thread_ranges H P)[i + 1]? = some (c, d) → c = b) ∧
    (∃ a, (thread_ranges H P)[P.toNat - 1]? = some (a, H)) ∧
    (∀ (i j : Nat) (a b c d : Int), i ≠ j → (thread_ranges H P)[i]? = some (a, b) →
      (thread_ranges H P)[j]? = some (c, d) → ∀ r, ¬ ((a ≤ r ∧ r < b) ∧ (c ≤ r ∧ r < d))) ∧
    (∀ r, (0 ≤ r ∧ r < H) ↔
      ∃ (i : Nat) (a b : Int), (thread_ranges H P)[i]? = some (a, b) ∧ a ≤ r ∧ r < b) ∧
    (∀ (i j : Nat) (a b c d : Int), (thread_ranges H P)[i]? = some (a, b) →
      (thread_ranges H P)[j]? = some (c, d) → |(b - a) - (d - c)| ≤ 1) := by
  obtain ⟨hbase0, hrem0, hremP, hsum⟩ := div_mod_facts H P (by omega) hP
  have hbase : 1 ≤ Int.tdiv H P := by
    by_contra hlt
    have hz : Int.tdiv H P = 0 := by omega
    rw [hz] at hsum
    omega
  have hof := thread_ranges_of_getElem H P (by omega) hP
  have hget := thread_ranges_getElem H P (by omega) hP
  have hzero := range_start_zero H P (by omega) hP
  have hlast := range_start_last H P (by omega) hP
  have hmono := fun i j => range_start_mono (Int.tdiv H P) (Int.tmod H P) i j hbase0
  have hsucc := range_start_succ (Int.tdiv H P) (Int.tmod H P)
  refine ⟨thread_ranges_length H P, ?_, ?_, ?_, ?_, ?_, ?_, ?_⟩
  · intro i a b h
    obtain ⟨hi, ha, hb⟩ := hof i a b h
    have h1 := hmono 0 i (by omega)
    have h2 := hmono (i + 1) P (by omega)
    have h3 := hsucc i
    subst ha hb
    refine ⟨by omega, ?_, by omega⟩
    rw [h3]
    split <;> omega
  · refine ⟨range_start (Int.tdiv H P) (Int.tmod H P) (0 + 1), ?_⟩
    have := hget 0 (by omega)
    simpa [hzero] using this
  · intro i a b c d h1 h2
    obtain ⟨_, _, hb⟩ := hof i a b h1
    obtain ⟨_, hc, _⟩ := hof (i + 1) c d h2
    rw [hb, hc]
    push_cast
    rfl
  · refine ⟨range_start (Int.tdiv H P) (Int.tmod H P) ((P.toNat - 1 : Nat) : Int), ?_⟩
    have h := hget (P.toNat - 1) (by omega)
    have e : ((P.toNat - 1 : Nat) : Int) + 1 = P := by omega
    rw [e, hlast] at h
    exact h
  · intro i j a b c d hij h1 h2 r hr
    obtain ⟨_, ha, hb⟩ := hof i a b h1
    obtain ⟨_, hc, hd⟩ := hof j c d h2
    subst ha hb hc hd
    rcases Nat.lt_or_gt_of_ne hij with hlt | hgt
    · have := hmono (i + 1) j (by omega)
      omega
    · have := hmono (j + 1) i (by omega)
      omega
  · intro r
    constructor
    · rintro ⟨h0, h1⟩
      have hlastN : range_start (Int.tdiv H P) (Int.tmod H P) (P.toNat : Int) = H := by
        rw [Int.toNat_of_nonneg (by omega)]
        exact hlast
      obtain ⟨k, hk, hk1, hk2⟩ := range_start_cover (Int.tdiv H P) (Int.tmod H P) hbase0 r
        P.toNat (by omega) (by omega)
      exact ⟨k, _, _, hget k hk, hk1, hk2⟩
    · rintro ⟨i, a, b, h, ha, hb⟩
      obtain ⟨hi, ha1, hb1⟩ := hof i a b h
      subst ha1 hb1
      have h1 := hmono 0 i (by omega)
      have h2 := hmono (i + 1) P (by omega)
      omega
  · intro i j a b c d h1 h2
    obtain ⟨_, ha, hb⟩ := hof i a b h1
    obtain ⟨_, hc, hd⟩ := hof j c d h2
    subst ha hb hc hd
    rw [hsucc i, hsucc j, abs_le]
    constructor <;> split <;> split <;> omega

theorem thread_ranges_partition_witness :
    (thread_ranges 10 3).length = (3 : Int).toNat ∧
    (∀ (i : Nat) (a b : Int), (thread_ranges 10 3)[i]? = some (a, b) →
      0 ≤ a ∧ a < b ∧ b ≤ 10) ∧
    (∃ b, (thread_ranges 10 3)[0]? = some (0, b)) ∧
    (∀ (i : Nat) (a b c d : Int), (thread_ranges 10 3)[i]? = some (a, b) →
      (thread_ranges 10 3)[i + 1]? = some (c, d) → c = b) ∧
    (∃ a, (thread_ranges 10 3)[(3 : Int).toNat - 1]? = some (a, 10)) ∧
    (∀ (i j : Nat) (a b c d : Int), i ≠ j → (thread_ranges 10 3)[i]? = some (a, b) →
      (thread_ranges 10 3)[j]? = some (c, d) → ∀ r, ¬ ((a ≤ r ∧ r < b) ∧ (c ≤ r ∧ r < d))) ∧
    (∀ r, (0 ≤ r ∧ r < 10) ↔
      ∃ (i : Nat) (a b : Int), (thread_ranges 10 3)[i]? = some (a, b) ∧ a ≤ r ∧ r < b) ∧
    (∀ (i j : Nat) (a b c d : Int), (thread_ranges 10 3)[i]? = some (a, b) →
      (thread_ranges 10 3)[j]? = some (c, d) → |(b - a) - (d - c)| ≤ 1) :=
  thread_ranges_partition 10 3 (by decide) (by decide) (by decide)

/-! ## The barrier -/

theorem barrier_returns_length :
    ∀ (n : Nat) (b : pthread_barrier_t), (barrier_returns n b).length = n
  | 0, _ => rfl
  | n + 1, b => by simp [barrier_returns, barrier_returns_length n]

/-- One call on a barrier whose counter is `c < P`: the trip count stays, the
counter becomes `c + 1` or wraps to `0`, and the call is the leader exactly when
it wraps. -/
theorem pthread_barrier_wait_step (P : Nat) (b : pthread_barrier_t) (c : Nat)
    (hmax : (P : Int) ≤ INT_MAX) (htrip : b.tripCount = (P : Int))
    (hcount : b.count = (c : Int)) (hc : c < P) :
    (pthread_barrier_wait b).1.tripCount = (P : Int) ∧
      ((c + 1 < P ∧ (pthread_barrier_wait b).1.count = ((c + 1 : Nat) : Int) ∧
          (pthread_barrier_wait b).2 = 0) ∨
        (c + 1 = P ∧ (pthread_barrier_wait b).1.count = ((0 : Nat) : Int) ∧
          (pthread_barrier_wait b).2 = PTHREAD_BARRIER_SERIAL_THREAD)) := by
  have hmax1 : (P : Int) ≤ 2147483647 := hmax
  have hwrap : wrap_int ((c : Int) + 1) = (c : Int) + 1 :=
    wrap_int_eq _ (int_min_le _ (by omega)) (le_int_max _ (by omega))
  unfold pthread_barrier_wait
  simp only [htrip, hcount, hwrap]
  by_cases h : c + 1 < P
  · have hnot : ¬ ((c : Int) + 1 ≥ (P : Int)) := by omega
    rw [if_neg hnot]
    exact ⟨rfl, Or.inl ⟨h, by push_cast; rfl, rfl⟩⟩
  · have hge : (c : Int) + 1 ≥ (P : Int) := by omega
    rw [if_pos hge]
    exact ⟨rfl, Or.inr ⟨by omega, rfl, rfl⟩⟩

theorem barrier_returns_getElem (P : Nat) (hmax : (P : Int) ≤ INT_MAX) :
    ∀ (n : Nat) (b : pthread_barrier_t) (c : Nat), b.tripCount = (P : Int) →
      b.count = (c : Int) → c < P → ∀ j, j < n →
      (barrier_returns n b)[j]?
        = some (if P ∣ c + j + 1 then PTHREAD_BARRIER_SERIAL_THREAD else 0)
  | 0, _, _, _, _, _, j, hj => absurd hj (Nat.not_lt_zero j)
  | n + 1, b, c, htrip, hcount, hc, j, hj => by
    obtain ⟨ht, hstep⟩ := pthread_barrier_wait_step P b c hmax htrip hcount hc
    cases j with
    | zero =>
      simp only [barrier_returns, List.getElem?_cons_zero, Nat.add_zero]
      rcases hstep with ⟨hlt, _, hret⟩ | ⟨heq, _, hret⟩
      · have hnd : ¬ P ∣ c + 1 := fun hd => by
          have := Nat.le_of_dvd (by omega) hd
          omega
        rw [hret, if_neg hnd]
      · rw [hret, if_pos (by rw [heq])]
    | succ j =>
      simp only [barrier_returns, List.getElem?_cons_succ]
      rcases hstep with ⟨hlt, hcnt, _⟩ | ⟨heq, hcnt, _⟩
      · rw [barrier_returns_getElem P hmax n _ (c + 1) ht hcnt hlt j (by omega)]
        have e : c + 1 + j + 1 = c + (j + 1) + 1 := by omega
        rw [e]
      · rw [barrier_returns_getElem P hmax n _ 0 ht hcnt (by omega) j (by omega)]
        have e : c + (j + 1) + 1 = P + (0 + j + 1) := by omega
        simp only [e, Nat.dvd_add_right (dvd_refl P)]

theorem barrier_round (P : Nat) (hP : 1 ≤ P) (hmax : (P : Int) ≤ INT_MAX)
    (b : pthread_barrier_t) (htrip : b.tripCount = (P : Int)) (hcount : b.count = 0) (rounds r : Nat)
    (hr : r < rounds) :
    ((barrier_returns (rounds * P) b).drop (r * P)).take P
      = List.replicate (P - 1) 0 ++ [PTHREAD_BARRIER_SERIAL_THREAD] := by
  apply List.ext_getElem?
  intro j
  rw [List.getElem?_take, List.getElem?_drop]
  have hle : (r + 1) * P ≤ rounds * P := Nat.mul_le_mul_right P (by omega)
  have hexp : (r + 1) * P = r * P + P := by ring
  by_cases hj : j < P
  · rw [if_pos hj, barrier_returns_getElem P hmax (rounds * P) b 0 htrip (by simpa using hcount)
      (by omega) (r * P + j) (by omega)]
    have e : 0 + (r * P + j) + 1 = r * P + (j + 1) := by omega
    simp only [e, Nat.dvd_add_right (Dvd.intro_left r rfl)]
    by_cases hlast : j + 1 = P
    · rw [if_pos (by rw [hlast]), List.getElem?_append_right (by simp; omega)]
      have : j - (List.replicate (P - 1) (0 : Int)).length = 0 := by simp; omega
      rw [this]
      rfl
    · have hnd : ¬ P ∣ j + 1 := fun hd => by
        have := Nat.le_of_dvd (by omega) hd
        omega
      rw [if_neg hnd, List.getElem?_append_left (by simp; omega), List.getElem?_replicate,
        if_pos (by omega)]
  · rw [if_neg hj, List.getElem?_eq_none (by simp; omega)]

/-- The barrier after `pthread_barrier_init` with a party count that fits an
`int`. -/
theorem pthread_barrier_init_fits (P : Nat) (hP : 1 ≤ P) (hmax : (P : Int) ≤ INT_MAX)
    (b0 : pthread_barrier_t) :
    pthread_barrier_init b0 P 0 0
      = ⟨0, false, { b0 with tripCount := (P : Int), count := 0 }⟩ := by
  have hmax1 : (P : Int) ≤ 2147483647 := hmax
  unfold pthread_barrier_init
  rw [if_neg (by omega), wrap_int_eq _ (int_min_le _ (by omega)) hmax]
  simp

/-- C4, as stated, fails for the party count `4294967295`, a value of
`unsigned int`: the `int` field `tripCount` holds `-1`, and the first call of
`pthread_barrier_wait` returns `PTHREAD_BARRIER_SERIAL_THREAD` though `1` is not
a multiple of the party count. -/
theorem barrier_party_count_overflow :
    (pthread_barrier_init ⟨0, 0⟩ 4294967295 0 0).rc = 0 ∧
      (pthread_barrier_init ⟨0, 0⟩ 4294967295 0 0).barrier.tripCount = -1 ∧
      ¬ (4294967295 ∣ 1) ∧
      barrier_returns 1 (pthread_barrier_init ⟨0, 0⟩ 4294967295 0 0).barrier
        = [PTHREAD_BARRIER_SERIAL_THREAD] := by
  decide

/-- C4, amended. A barrier initialised with party count `P`, `1 ≤ P ≤ INT_MAX`
(the mutex and the condition variable initialised successfully): taking the calls
of `pthread_barrier_wait` in the order of their counter updates, the `k`-th call
returns `PTHREAD_BARRIER_SERIAL_THREAD` iff `P` divides `k` and returns `0`
otherwise; so every round of `P` consecutive calls has one leader and `P - 1`
followers, for any number of rounds. -/
theorem barrier_one_leader_per_round (P : Nat) (hP : 1 ≤ P) (hmax : (P : Int) ≤ INT_MAX)
    (b0 : pthread_barrier_t) :
    (pthread_barrier_init b0 P 0 0).rc = 0 ∧
    (∀ n k : Nat, 1 ≤ k → k ≤ n →
      (barrier_returns n (pthread_barrier_init b0 P 0 0).barrier)[k - 1]?
        = some (if P ∣ k then PTHREAD_BARRIER_SERIAL_THREAD else 0)) ∧
    (∀ rounds r : Nat, r < rounds →
      (((barrier_returns (rounds * P) (pthread_barrier_init b0 P 0 0).barrier).drop
          (r * P)).take P).length = P ∧
      (((barrier_returns (rounds * P) (pthread_barrier_init b0 P 0 0).barrier).drop
          (r * P)).take P).count PTHREAD_BARRIER_SERIAL_THREAD = 1 ∧
      (((barrier_returns (rounds * P) (pthread_barrier_init b0 P 0 0).barrier).drop
          (r * P)).take P).count 0 = P - 1) := by
  rw [pthread_barrier_init_fits P hP hmax b0]
  refine ⟨rfl, ?_, ?_⟩
  · intro n k hk1 hkn
    have h := barrier_returns_getElem P hmax n { b0 with tripCount := (P : Int), count := 0 } 0
      rfl rfl (by omega) (k - 1) (by omega)
    have e : 0 + (k - 1) + 1 = k := by omega
    rw [e] at h
    exact h
  · intro rounds r hr
    rw [barrier_round P hP hmax { b0 with tripCount := (P : Int), count := 0 } rfl rfl rounds r hr]
    refine ⟨by simp; omega, ?_, ?_⟩
    · simp [List.count_append, List.count_replicate, PTHREAD_BARRIER_SERIAL_THREAD]
    · simp [List.count_append, List.count_replicate, PTHREAD_BARRIER_SERIAL_THREAD]

theorem barrier_one_leader_per_round_witness :
    (pthread_barrier_init ⟨7, 9⟩ 3 0 0).rc = 0 ∧
    (∀ n k : Nat, 1 ≤ k → k ≤ n →
      (barrier_returns n (pthread_barrier_init ⟨7, 9⟩ 3 0 0).barrier)[k - 1]?
        = some (if 3 ∣ k then PTHREAD_BARRIER_SERIAL_THREAD else 0)) ∧
    (∀ rounds r : Nat, r < rounds →
      (((barrier_returns (rounds * 3) (pthread_barrier_init ⟨7, 9⟩ 3 0 0).barrier).drop
          (r * 3)).take 3).length = 3 ∧
      (((barrier_returns (rounds * 3) (pthread_barrier_init ⟨7, 9⟩ 3 0 0).barrier).drop
          (r * 3)).take 3).count PTHREAD_BARRIER_SERIAL_THREAD = 1 ∧
      (((barrier_returns (rounds * 3) (pthread_barrier_init ⟨7, 9⟩ 3 0 0).barrier).drop
          (r * 3)).take 3).count 0 = 3 - 1) :=
  barrier_one_leader_per_round 3 (by decide) (by decide) ⟨7, 9⟩

/-! ## The compute phase -/

theorem readCell_natCast (a : List Int) (n : Nat) : readCell a (n : Int) = a[n]? := by
  simp [readCell]

theorem grid_ext (a b : List Int) (W H : Int) (hW : 0 < W)
    (ha : (a.length : Int) = W * H) (hb : (b.length : Int) = W * H)
    (h : ∀ row col, 0 ≤ row → row < H → 0 ≤ col → col < W →
      readCell a (row * W + col) = readCell b (row * W + col)) : a = b := by
  apply List.ext_getElem?
  intro n
  by_cases hn : (n : Int) < W * H
  · have hdm := Int.emod_add_ediv (n : Int) W
    have hm0 := Int.emod_nonneg (n : Int) (show W ≠ 0 by omega)
    have hm1 := Int.emod_lt_of_pos (n : Int) hW
    have hd0 : 0 ≤ (n : Int) / W := Int.ediv_nonneg (by omega) (by omega)
    have hd1 : (n : Int) / W < H := by
      by_contra hge
      have : ((n : Int) / W - H) * W ≥ 0 := mul_nonneg (by omega) (by omega)
      nlinarith
    have hcell := h ((n : Int) / W) ((n : Int) % W) hd0 hd1 hm0 hm1
    have hflat : (n : Int) / W * W + (n : Int) % W = (n : Int) := by
      rw [mul_comm]
      omega
    rw [hflat, readCell_natCast, readCell_natCast] at hcell
    exact hcell
  · rw [List.getElem?_eq_none (by omega), List.getElem?_eq_none (by omega)]

theorem thread_ranges_bounds (H P : Int) (hH : 0 ≤ H) (hP : 1 ≤ P) (k : Nat) (a b : Int)
    (h : (thread_ranges H P)[k]? = some (a, b)) : 0 ≤ a ∧ a ≤ b ∧ b ≤ H := by
  obtain ⟨hbase0, _, _, _⟩ := div_mod_facts H P hH hP
  obtain ⟨hk, ha, hb⟩ := thread_ranges_of_getElem H P hH hP k a b h
  have h0 := range_start_zero H P hH hP
  have hl := range_start_last H P hH hP
  have h1 := range_start_mono (Int.tdiv H P) (Int.tmod H P) 0 k hbase0 (by omega)
  have h2 := range_start_mono (Int.tdiv H P) (Int.tmod H P) k (k + 1) hbase0 (by omega)
  have h3 := range_start_mono (Int.tdiv H P) (Int.tmod H P) (k + 1) P hbase0 (by omega)
  omega

theorem thread_ranges_cover (H P : Int) (hH : 0 ≤ H) (hP : 1 ≤ P) (r : Int) (h0 : 0 ≤ r)
    (h1 : r < H) :
    ∃ (k : Nat) (a b : Int), k < P.toNat ∧ (thread_ranges H P)[k]? = some (a, b) ∧
      a ≤ r ∧ r < b := by
  obtain ⟨hbase0, _, _, _⟩ := div_mod_facts H P hH hP
  have hz := range_start_zero H P hH hP
  have hl : range_start (Int.tdiv H P) (Int.tmod H P) (P.toNat : Int) = H := by
    rw [Int.toNat_of_nonneg (by omega)]
    exact range_start_last H P hH hP
  obtain ⟨k, hk, hk1, hk2⟩ := range_start_cover (Int.tdiv H P) (Int.tmod H P) hbase0 r
    P.toNat (by omega) (by omega)
  exact ⟨k, _, _, hk, thread_ranges_getElem H P hH hP k hk, hk1, hk2⟩

theorem compute_phase_cells (copy : List Int) (W H P : Int) (hW : 0 < W) (hH : 0 < H)
    (hfit : GridFits W H) (hP : 1 ≤ P) (hlen : (copy.length : Int) = W * H) :
    ∀ (order : List Nat) (world : List Int), (∀ k ∈ order, k < P.toNat) →
      (world.length : Int) = W * H →
      ∃ w1, compute_phase copy W H (thread_ranges H P) order world = some w1 ∧
        w1.length = world.length ∧
        ∀ row col, 0 ≤ row → row < H → 0 ≤ col → col < W →
          (Covered (thread_ranges H P) order row →
            readCell w1 (row * W + col) = some (next_state copy W H row col)) ∧
          (¬ Covered (thread_ranges H P) order row →
            readCell w1 (row * W + col) = readCell world (row * W + col))
  | [], world, _, _ => by
    refine ⟨world, rfl, rfl, fun row col _ _ _ _ => ⟨?_, fun _ => rfl⟩⟩
    rintro ⟨k, a, b, hk, _⟩
    exact absurd hk (List.not_mem_nil k)
  | k :: rest, world, hord, hwlen => by
    have hk : k < P.toNat := hord k (List.mem_cons_self k rest)
    have hget := thread_ranges_getElem H P (by omega) hP k hk
    obtain ⟨ha0, hab, hbH⟩ := thread_ranges_bounds H P (by omega) hP k _ _ hget
    obtain ⟨w0, hw0, hl0, hc0⟩ := update_world_cell world copy W H _ _ hW hH hfit hwlen hlen
      ha0 hab hbH
    obtain ⟨w1, hw1, hl1, hc1⟩ := compute_phase_cells copy W H P hW hH hfit hP hlen rest w0
      (fun j hj => hord j (List.mem_cons_of_mem k hj)) (by rw [hl0]; exact hwlen)
    refine ⟨w1, ?_, by rw [hl1, hl0], fun row col hr0 hr hcl0 hcl => ?_⟩
    · simp only [compute_phase, hget, hw0, Option.some_bind, Option.bind_some]
      exact hw1
    · obtain ⟨hcov, hnot⟩ := hc1 row col hr0 hr hcl0 hcl
      have hcell := hc0 row col hr0 hr hcl0 hcl
      constructor
      · rintro ⟨j, a, b, hj, hjr, hja, hjb⟩
        by_cases hrest : Covered (thread_ranges H P) rest row
        · exact hcov hrest
        · rw [hnot hrest, hcell]
          rcases List.mem_cons.1 hj with hjk | hjrest
          · subst hjk
            rw [hget] at hjr
            injection hjr with hjr
            injection hjr with e1 e2
            rw [if_pos ⟨by omega, by omega⟩]
          · exact absurd ⟨j, a, b, hjrest, hjr, hja, hjb⟩ hrest
      · intro hncov
        have hrest : ¬ Covered (thread_ranges H P) rest row := by
          rintro ⟨j, a, b, hj, hrest⟩
          exact hncov ⟨j, a, b, List.mem_cons_of_mem k hj, hrest⟩
        rw [hnot hrest, hcell, if_neg]
        intro hin
        exact hncov ⟨k, _, _, List.mem_cons_self k rest, hget, hin.1, hin.2⟩

theorem full_generation_cells (world : List Int) (W H : Int) (hW : 0 < W) (hH : 0 < H)
    (hfit : GridFits W H) (hwlen : (world.length : Int) = W * H) :
    ∃ g, full_generation W H world = some g ∧ (g.length : Int) = W * H ∧
      ∀ row col, 0 ≤ row → row < H → 0 ≤ col → col < W →
        readCell g (row * W + col) = some (next_state world W H row col) := by
  obtain ⟨g, hg, hl, hc⟩ := update_world_cell world world W H 0 H hW hH hfit hwlen hwlen le_rfl
    (by omega) le_rfl
  refine ⟨g, hg, by rw [hl]; exact hwlen, fun row col hr0 hr hc0 hcl => ?_⟩
  rw [hc row col hr0 hr hc0 hcl, if_pos ⟨hr0, hr⟩]

/-- The compute phase of `P` threads, taken in any order that lists each thread,
does what one call of `update_world` over all rows does. -/
theorem compute_phase_eq_full (world : List Int) (W H P : Int) (hW : 0 < W) (hH : 0 < H)
    (hfit : GridFits W H) (hP : 1 ≤ P) (hwlen : (world.length : Int) = W * H) (order : List Nat)
    (hperm : order.Perm (List.range P.toNat)) :
    compute_phase world W H (thread_ranges H P) order world = full_generation W H world := by
  obtain ⟨g, hg, hgl, hgc⟩ := full_generation_cells world W H hW hH hfit hwlen
  obtain ⟨w1, hw1, hl1, hc1⟩ := compute_phase_cells world W H P hW hH hfit hP hwlen order world
    (fun k hk => List.mem_range.1 ((hperm.mem_iff).1 hk)) hwlen
  rw [hg, hw1]
  congr 1
  apply grid_ext w1 g W H hW (by rw [hl1]; exact hwlen) hgl
  intro row col hr0 hr hc0 hc
  obtain ⟨k, a, b, hk, hget, ha, hb⟩ := thread_ranges_cover H P (by omega) hP row hr0 hr
  have hcov : Covered (thread_ranges H P) order row :=
    ⟨k, a, b, (hperm.mem_iff).2 (List.mem_range.2 hk), hget, ha, hb⟩
  rw [(hc1 row col hr0 hr hc0 hc).1 hcov, hgc row col hr0 hr hc0 hc]

/-! ## The generation loop -/

theorem thread_ranges_single (H : Int) : thread_ranges H 1 = [(0, H)] := by
  simp [thread_ranges, partition_loop]

theorem memcpy_full (dst src : List Int) (n : Int) (hs : (src.length : Int) = n)
    (hd : (dst.length : Int) = n) : memcpy dst src n = some src := by
  unfold memcpy
  rw [if_pos ⟨by omega, by omega, by omega⟩, List.take_of_length_le (by omega),
    List.drop_of_length_le (by omega), List.append_nil]

theorem simulate_round_eq (W H N P : Int) (hW : 0 < W) (hH : 0 < H) (hfit : GridFits W H)
    (hP : 1 ≤ P) (order : List Nat) (hperm : order.Perm (List.range P.toNat)) (turn : Int) (st : SimState)
    (hw : (st.world.length : Int) = W * H) (hc : (st.world_copy.length : Int) = W * H) :
    simulate_round W H N (thread_ranges H P) order turn st
      = (if turn < N then full_generation W H st.world else some st.world).bind
          (fun world => some { world := world, world_copy := st.world,
                               printed := st.printed ++ [(turn, world)] }) := by
  have hsize : wrap_int (W * H) = W * H :=
    wrap_int_eq _ (int_min_le _ (by omega)) hfit.2.2
  unfold simulate_round
  rw [hsize, memcpy_full st.world_copy st.world (W * H) hw hc]
  simp only [Option.some_bind, Option.bind_some]
  rw [compute_phase_eq_full st.world W H P hW hH hfit hP hw order hperm]

theorem LoopInv_step (W H : Int) (hW : 0 < W) (hH : 0 < H) (hfit : GridFits W H) (world0 : List Int) (n : Nat)
    (turn : Int) (h0 : 0 ≤ turn) (hle : turn ≤ (n : Int)) (st : SimState)
    (hI : LoopInv W H world0 n turn st) :
    ∃ st1, (if turn < (n : Int) then full_generation W H st.world else some st.world).bind
          (fun world => some { world := world, world_copy := st.world,
                               printed := st.printed ++ [(turn, world)] }) = some st1 ∧
      LoopInv W H world0 n (turn + 1) st1 := by
  obtain ⟨hw, hc, hgen, hplen, hframes⟩ := hI
  have hsucc : (turn + 1).toNat = turn.toNat + 1 := by omega
  have hturn : ((turn.toNat : Nat) : Int) = turn := by omega
  have hold : ∀ (g : List Int) (j : Nat), j < (turn + 1).toNat →
      generations W H (min (turn.toNat + 1) n) world0 = some g →
      ∃ g1, generations W H (min (j + 1) n) world0 = some g1 ∧
        (st.printed ++ [(turn, g)])[j]? = some ((j : Int), g1) := by
    intro g j hj hg
    by_cases hjt : j < turn.toNat
    · obtain ⟨g1, hg1, hp1⟩ := hframes j hjt
      exact ⟨g1, hg1, by rw [List.getElem?_append_left (by omega)]; exact hp1⟩
    · have hjeq : j = turn.toNat := by omega
      refine ⟨g, by rw [hjeq]; exact hg, ?_⟩
      rw [List.getElem?_append_right (by omega), hplen, hjeq, Nat.sub_self, hturn]
      rfl
  by_cases hlt : turn < (n : Int)
  · obtain ⟨g, hg, hgl, _⟩ := full_generation_cells st.world W H hW hH hfit hw
    have hmin : min turn.toNat n = turn.toNat := by omega
    have hmin1 : min (turn.toNat + 1) n = turn.toNat + 1 := by omega
    have hgen1 : generations W H (min (turn.toNat + 1) n) world0 = some g := by
      rw [hmin] at hgen
      rw [hmin1]
      simp only [generations, hgen, Option.some_bind, Option.bind_some]
      exact hg
    refine ⟨{ world := g, world_copy := st.world, printed := st.printed ++ [(turn, g)] },
      by rw [if_pos hlt, hg]; rfl, hgl, hw, ?_, ?_, ?_⟩
    · rw [hsucc]
      exact hgen1
    · simp only [List.length_append, List.length_singleton, hplen, hsucc]
    · intro j hj
      exact hold g j hj hgen1
  · have hmin : min turn.toNat n = n := by omega
    have hmin1 : min (turn.toNat + 1) n = n := by omega
    have hgen1 : generations W H (min (turn.toNat + 1) n) world0 = some st.world := by
      rw [hmin] at hgen
      rw [hmin1]
      exact hgen
    refine ⟨{ world := st.world, world_copy := st.world,
               printed := st.printed ++ [(turn, st.world)] },
      by rw [if_neg hlt]; rfl, hw, hw, ?_, ?_, ?_⟩
    · rw [hsucc]
      exact hgen1
    · simp only [List.length_append, List.length_singleton, hplen, hsucc]
    · intro j hj
      exact hold st.world j hj hgen1

/-- The whole run, for `num_turns < INT_MAX` on a grid that fits: with enough fuel
it ends, `world` is the initial grid after `num_turns` generations, and the
frames are labelled `0 .. num_turns`, frame `j` showing the grid after
`min(j + 1, num_turns)` generations. -/
theorem run_threads_frames (world copy0 : List Int) (W H N P : Int) (sched : Int → List Nat)
    (hW : 0 < W) (hH : 0 < H) (hfit : GridFits W H) (hN : 0 ≤ N) (hNmax : N < INT_MAX)
    (hP : 1 ≤ P) (hw : (world.length : Int) = W * H) (hc : (copy0.length : Int) = W * H)
    (hsched : ∀ t, (sched t).Perm (List.range P.toNat)) :
    ∃ st, (∀ fuel : Nat, N.toNat + 2 ≤ fuel →
        run_threads fuel world copy0 W H N P sched = some st) ∧
      LoopInv W H world N.toNat (N + 1) st := by
  have hNn : ((N.toNat : Nat) : Int) = N := by omega
  obtain ⟨st, hst, hI⟩ := cFor_inv
    (fun turn st => simulate_round W H N (thread_ranges H P) (sched turn) turn st)
    (fun t st => LoopInv W H world N.toNat t st) 0 (N + 1)
    { world := world, world_copy := copy0, printed := [] } (by omega)
    (by
      refine ⟨hw, hc, ?_, rfl, fun j hj => absurd hj (Nat.not_lt_zero j)⟩
      simp [generations])
    (by
      intro turn st h0 hlt hI
      show ∃ t1, simulate_round W H N (thread_ranges H P) (sched turn) turn st = some t1 ∧
        LoopInv W H world N.toNat (turn + 1) t1
      rw [simulate_round_eq W H N P hW hH hfit hP (sched turn) (hsched turn) turn st hI.1
        hI.2.1]
      have := LoopInv_step W H hW hH hfit world N.toNat turn h0 (by omega) st hI
      rw [hNn] at this
      exact this)
  refine ⟨st, fun fuel hfuel => ?_, hI⟩
  unfold run_threads simulate_world
  rw [forLe_eq_cFor _ N fuel _ hN hNmax hfuel]
  exact hst

/-- With `num_turns = INT_MAX` the run returns on no fuel. -/
theorem run_threads_int_max_none (fuel : Nat) (world copy0 : List Int) (W H P : Int)
    (sched : Int → List Nat) :
    run_threads fuel world copy0 W H 2147483647 P sched = none := by
  unfold run_threads simulate_world
  exact forLe_int_max_none _ fuel 0 _ (by decide)

/-- On the grid of one row and `2^31 - 1` columns the first compute phase fails,
so the run returns on no fuel. -/
theorem run_threads_col_overflow_none (fuel : Nat) (world copy0 : List Int) :
    run_threads fuel world copy0 2147483647 1 1 1 (fun _ => [0]) = none := by
  cases fuel with
  | zero => rfl
  | succ f =>
    have hround : ∀ st : SimState,
        simulate_round 2147483647 1 1 (thread_ranges 1 1) [0] 0 st = none := by
      intro st
      unfold simulate_round
      cases hm : memcpy st.world_copy st.world (wrap_int (2147483647 * 1)) with
      | none => rfl
      | some c =>
        simp only [Option.some_bind, Option.bind_some, thread_ranges_single, compute_phase,
          List.getElem?_cons_zero, update_world_col_overflow, Option.none_bind,
          Option.bind_none, if_pos (show (0 : Int) < 1 by decide)]
    unfold run_threads simulate_world
    simp only [forLe, if_pos (show (0 : Int) ≤ 1 by decide), hround, Option.none_bind,
      Option.bind_none]

theorem LoopInv_frame (W H : Int) (world0 : List Int) (n : Nat) (st : SimState)
    (hI : LoopInv W H world0 n ((n : Int) + 1) st) (label : Nat) (hl : label ≤ n) :
    ∃ g, generations W H (min (label + 1) n) world0 = some g ∧
      ∀ g1, ((label : Int), g1) ∈ st.printed ↔ g1 = g := by
  obtain ⟨_, _, _, hplen, hframes⟩ := hI
  have hlen : st.printed.length = n + 1 := by omega
  obtain ⟨g, hg, hp⟩ := hframes label (by omega)
  refine ⟨g, hg, fun g1 => ⟨fun hmem => ?_, fun heq => ?_⟩⟩
  · obtain ⟨j, hj⟩ := List.mem_iff_getElem?.1 hmem
    have hjlt : j < st.printed.length := by
      by_contra hge
      rw [List.getElem?_eq_none (by omega)] at hj
      exact absurd hj (by simp)
    obtain ⟨gj, _, hpj⟩ := hframes j (by omega)
    rw [hpj] at hj
    injection hj with hj
    injection hj with e1 e2
    have hjl : j = label := by omega
    subst hjl
    rw [hp] at hpj
    injection hpj with hpj
    injection hpj with _ e3
    rw [← e2, e3]
  · subst heq
    exact List.mem_iff_getElem?.2 ⟨label, hp⟩

/-- C3, as stated, fails at two inputs.  With `N = INT_MAX` generations (on the
3 × 3 grid, one worker) the condition `turn <= num_turns` holds of every `int`, so
the run never ends and yields no final grid.  On the grid of one row and
`2^31 - 1` columns (one worker, one generation) `col + width` leaves the `int`
range in the first cell, `update_world` reads `world_copy[-1]`, and the run yields
no final grid either. -/
theorem run_threads_no_final_grid :
    (¬ ∃ (fuel : Nat) (st : SimState),
      run_threads fuel [0, 1, 0, 0, 1, 0, 0, 1, 0] [0, 0, 0, 0, 0, 0, 0, 0, 0] 3 3
        2147483647 1 (fun _ => [0]) = some st) ∧
    ((List.replicate 2147483647 (0 : Int)).length : Int) = 2147483647 * 1 ∧
    (¬ ∃ (fuel : Nat) (st : SimState),
      run_threads fuel (List.replicate 2147483647 0) (List.replicate 2147483647 0)
        2147483647 1 1 1 (fun _ => [0]) = some st) := by
  refine ⟨?_, by rw [List.length_replicate]; rfl, ?_⟩
  · rintro ⟨fuel, st, h⟩
    rw [run_threads_int_max_none] at h
    exact Option.noConfusion h
  · rintro ⟨fuel, st, h⟩
    rw [run_threads_col_overflow_none] at h
    exact Option.noConfusion h

/-- C3, amended. For `W, H ≥ 1` with `2 * W ≤ INT_MAX`, `2 * H ≤ INT_MAX` and
`W * H ≤ INT_MAX`, a `W × H` grid, `0 ≤ N < INT_MAX` turns and `P ≥ 1` workers (also
when `P > H`), with the workers taken in any order in each compute phase: with
enough fuel the run with `P` workers ends, and with the same grid as the run with
one worker, whose single range is `[0, H)`; that grid is the initial one after `N`
whole-grid generations. -/
theorem run_threads_workers_agree (world copy0 copy1 : List Int) (W H N P : Int)
    (sched : Int → List Nat) (hW : 1 ≤ W) (hH : 1 ≤ H) (hW2 : 2 * W ≤ INT_MAX)
    (hH2 : 2 * H ≤ INT_MAX) (hWH : W * H ≤ INT_MAX) (hN : 0 ≤ N) (hNmax : N < INT_MAX)
    (hP : 1 ≤ P) (hw : (world.length : Int) = W * H) (hc0 : (copy0.length : Int) = W * H)
    (hc1 : (copy1.length : Int) = W * H)
    (hsched : ∀ t, (sched t).Perm (List.range P.toNat)) :
    thread_ranges H 1 = [(0, H)] ∧
    ∃ stP st1,
      (∀ fuel : Nat, N.toNat + 2 ≤ fuel →
        run_threads fuel world copy0 W H N P sched = some stP) ∧
      (∀ fuel : Nat, N.toNat + 2 ≤ fuel →
        run_threads fuel world copy1 W H N 1 (fun _ => [0]) = some st1) ∧
      stP.world = st1.world ∧ generations W H N.toNat world = some st1.world := by
  obtain ⟨stP, hP1, hIP⟩ := run_threads_frames world copy0 W H N P sched (by omega) (by omega)
    ⟨hW2, hH2, hWH⟩ hN hNmax hP hw hc0 hsched
  obtain ⟨st1, h11, hI1⟩ := run_threads_frames world copy1 W H N 1 (fun _ => [0]) (by omega)
    (by omega) ⟨hW2, hH2, hWH⟩ hN hNmax le_rfl hw hc1 (fun _ => List.Perm.refl _)
  have hmin : min (N + 1).toNat N.toNat = N.toNat := by omega
  have hgP := hIP.2.2.1
  have hg1 := hI1.2.2.1
  rw [hmin] at hgP hg1
  refine ⟨thread_ranges_single H, stP, st1, hP1, h11, ?_, hg1⟩
  rw [hgP] at hg1
  injection hg1

theorem run_threads_workers_agree_witness :
    thread_ranges 3 1 = [(0, 3)] ∧
    ∃ stP st1,
      (∀ fuel : Nat, (2 : Int).toNat + 2 ≤ fuel →
        run_threads fuel [0, 1, 0, 0, 1, 0, 0, 1, 0] [5, 5, 5, 5, 5, 5, 5, 5, 5] 3 3 2 3
          (fun _ => [2, 0, 1]) = some stP) ∧
      (∀ fuel : Nat, (2 : Int).toNat + 2 ≤ fuel →
        run_threads fuel [0, 1, 0, 0, 1, 0, 0, 1, 0] [0, 0, 0, 0, 0, 0, 0, 0, 0] 3 3 2 1
          (fun _ => [0]) = some st1) ∧
      stP.world = st1.world ∧
      generations 3 3 (2 : Int).toNat [0, 1, 0, 0, 1, 0, 0, 1, 0] = some st1.world :=
  run_threads_workers_agree [0, 1, 0, 0, 1, 0, 0, 1, 0] [5, 5, 5, 5, 5, 5, 5, 5, 5]
    [0, 0, 0, 0, 0, 0, 0, 0, 0] 3 3 2 3 (fun _ => [2, 0, 1]) (by decide) (by decide)
    (by decide) (by decide) (by decide) (by decide) (by decide) (by decide) (by decide)
    (by decide) (by decide)
    (fun _ => (by decide : List.Perm [2, 0, 1] (List.range (Int.toNat 3))))

/-- C9, as stated, fails at three inputs.  With `num_turns = 0` the only round
skips `update_world`, so the frame labelled `0` is the configured grid itself,
while one generation of that grid gives another grid.  With `num_turns = INT_MAX`
the condition `turn <= num_turns` holds of every `int` and the run never ends.  On
the grid of one row and `2^31 - 1` columns `col + width` leaves the `int` range in
the first cell, `update_world` reads `world_copy[-1]`, and no frame is handed to
`print_world`. -/
theorem frame_zero_unchanged_when_no_turns :
    (run_threads 2 [0, 1, 0, 0, 1, 0, 0, 1, 0] [0, 0, 0, 0, 0, 0, 0, 0, 0] 3 3 0 1
        (fun _ => [0])
        = some { world := [0, 1, 0, 0, 1, 0, 0, 1, 0],
                 world_copy := [0, 1, 0, 0, 1, 0, 0, 1, 0],
                 printed := [(0, [0, 1, 0, 0, 1, 0, 0, 1, 0])] } ∧
      full_generation 3 3 [0, 1, 0, 0, 1, 0, 0, 1, 0] = some [1, 1, 1, 1, 1, 1, 1, 1, 1]) ∧
    (¬ ∃ (fuel : Nat) (st : SimState),
      run_threads fuel [0, 1, 0, 0, 1, 0, 0, 1, 0] [0, 0, 0, 0, 0, 0, 0, 0, 0] 3 3
        2147483647 1 (fun _ => [0]) = some st) ∧
    ((List.replicate 2147483647 (0 : Int)).length : Int) = 2147483647 * 1 ∧
    (¬ ∃ (fuel : Nat) (st : SimState),
      run_threads fuel (List.replicate 2147483647 0) (List.replicate 2147483647 0)
        2147483647 1 1 1 (fun _ => [0]) = some st) := by
  refine ⟨by decide, ?_, by rw [List.length_replicate]; rfl, ?_⟩
  · rintro ⟨fuel, st, h⟩
    rw [run_threads_int_max_none] at h
    exact Option.noConfusion h
  · rintro ⟨fuel, st, h⟩
    rw [run_threads_col_overflow_none] at h
    exact Option.noConfusion h

/-- C9, amended. In every run with `1 ≤ num_turns < INT_MAX` on a grid with
`2 * W ≤ INT_MAX`, `2 * H ≤ INT_MAX` and `W * H ≤ INT_MAX` (any content, any `P ≥ 1`,
any order of the workers), with enough fuel the run ends, one whole-grid
generation of the configured grid succeeds, and the grid handed to `print_world`
with label `0` is its result. -/
theorem frame_zero_is_first_generation (world copy0 : List Int) (W H N P : Int)
    (sched : Int → List Nat) (hW : 1 ≤ W) (hH : 1 ≤ H) (hW2 : 2 * W ≤ INT_MAX)
    (hH2 : 2 * H ≤ INT_MAX) (hWH : W * H ≤ INT_MAX) (hN : 1 ≤ N) (hNmax : N < INT_MAX)
    (hP : 1 ≤ P) (hw : (world.length : Int) = W * H) (hc0 : (copy0.length : Int) = W * H)
    (hsched : ∀ t, (sched t).Perm (List.range P.toNat)) :
    ∃ st g1,
      (∀ fuel : Nat, N.toNat + 2 ≤ fuel →
        run_threads fuel world copy0 W H N P sched = some st) ∧
      full_generation W H world = some g1 ∧
      ∀ g, ((0 : Int), g) ∈ st.printed ↔ g = g1 := by
  obtain ⟨st, hrun, hI⟩ := run_threads_frames world copy0 W H N P sched (by omega) (by omega)
    ⟨hW2, hH2, hWH⟩ (by omega) hNmax hP hw hc0 hsched
  have hNn : ((N.toNat : Nat) : Int) = N := by omega
  rw [← hNn] at hI
  obtain ⟨g, hg, hmem⟩ := LoopInv_frame W H world N.toNat st hI 0 (by omega)
  have hmin : min (0 + 1) N.toNat = 1 := by omega
  rw [hmin] at hg
  simp only [generations, Option.some_bind, Option.bind_some] at hg
  exact ⟨st, g, hrun, hg, by simpa using hmem⟩

theorem frame_zero_is_first_generation_witness :
    ∃ st g1,
      (∀ fuel : Nat, (2 : Int).toNat + 2 ≤ fuel →
        run_threads fuel [0, 1, 0, 0, 1, 0, 0, 1, 0] [5, 5, 5, 5, 5, 5, 5, 5, 5] 3 3 2 2
          (fun _ => [1, 0]) = some st) ∧
      full_generation 3 3 [0, 1, 0, 0, 1, 0, 0, 1, 0] = some g1 ∧
      ∀ g, ((0 : Int), g) ∈ st.printed ↔ g = g1 :=
  frame_zero_is_first_generation [0, 1, 0, 0, 1, 0, 0, 1, 0] [5, 5, 5, 5, 5, 5, 5, 5, 5]
    3 3 2 2 (fun _ => [1, 0]) (by decide) (by decide) (by decide) (by decide) (by decide)
    (by decide) (by decide) (by decide) (by decide) (by decide)
    (fun _ => (by decide : List.Perm [1, 0] (List.range (Int.toNat 2))))

/-- C10, as stated, fails at two inputs.  With `num_turns = INT_MAX` (on the
3 × 3 grid) the condition `turn <= num_turns` holds of every `int`: no round is
the last, and the run never ends.  On the grid of one row and `2^31 - 1` columns
(one turn) `col + width` leaves the `int` range in the first cell,
`update_world` reads `world_copy[-1]`, and no frame is handed to `print_world`. -/
theorem last_frames_overflow :
    (¬ ∃ (fuel : Nat) (st : SimState),
      run_threads fuel [0, 1, 0, 0, 1, 0, 0, 1, 0] [0, 0, 0, 0, 0, 0, 0, 0, 0] 3 3
        2147483647 1 (fun _ => [0]) = some st) ∧
    ((List.replicate 2147483647 (0 : Int)).length : Int) = 2147483647 * 1 ∧
    (¬ ∃ (fuel : Nat) (st : SimState),
      run_threads fuel (List.replicate 2147483647 0) (List.replicate 2147483647 0)
        2147483647 1 1 1 (fun _ => [0]) = some st) := by
  refine ⟨?_, by rw [List.length_replicate]; rfl, ?_⟩
  · rintro ⟨fuel, st, h⟩
    rw [run_threads_int_max_none] at h
    exact Option.noConfusion h
  · rintro ⟨fuel, st, h⟩
    rw [run_threads_col_overflow_none] at h
    exact Option.noConfusion h

/-- C10, amended. In every run with `1 ≤ num_turns < INT_MAX` on a grid with
`2 * W ≤ INT_MAX`, `2 * H ≤ INT_MAX` and `W * H ≤ INT_MAX`, with enough fuel the run
ends, and the grids handed to `print_world` with the labels `num_turns - 1` and
`num_turns` are one and the same grid: the round `turn = num_turns` skips
`update_world`. -/
theorem last_two_frames_identical (world copy0 : List Int) (W H N P : Int)
    (sched : Int → List Nat) (hW : 1 ≤ W) (hH : 1 ≤ H) (hW2 : 2 * W ≤ INT_MAX)
    (hH2 : 2 * H ≤ INT_MAX) (hWH : W * H ≤ INT_MAX) (hN : 1 ≤ N) (hNmax : N < INT_MAX)
    (hP : 1 ≤ P) (hw : (world.length : Int) = W * H) (hc0 : (copy0.length : Int) = W * H)
    (hsched : ∀ t, (sched t).Perm (List.range P.toNat)) :
    ∃ st g,
      (∀ fuel : Nat, N.toNat + 2 ≤ fuel →
        run_threads fuel world copy0 W H N P sched = some st) ∧
      (∀ g1, (N - 1, g1) ∈ st.printed ↔ g1 = g) ∧
      (∀ g1, (N, g1) ∈ st.printed ↔ g1 = g) := by
  obtain ⟨st, hrun, hI⟩ := run_threads_frames world copy0 W H N P sched (by omega) (by omega)
    ⟨hW2, hH2, hWH⟩ (by omega) hNmax hP hw hc0 hsched
  have hNn : ((N.toNat : Nat) : Int) = N := by omega
  rw [← hNn] at hI
  obtain ⟨g, hg, hmem⟩ := LoopInv_frame W H world N.toNat st hI (N.toNat - 1) (by omega)
  obtain ⟨g2, hg2, hmem2⟩ := LoopInv_frame W H world N.toNat st hI N.toNat le_rfl
  have hmin : min (N.toNat - 1 + 1) N.toNat = N.toNat := by omega
  have hmin2 : min (N.toNat + 1) N.toNat = N.toNat := by omega
  rw [hmin] at hg
  rw [hmin2, hg] at hg2
  injection hg2 with hgg
  subst hgg
  have e1 : ((N.toNat - 1 : Nat) : Int) = N - 1 := by omega
  rw [e1] at hmem
  rw [hNn] at hmem2
  exact ⟨st, g, hrun, hmem, hmem2⟩

theorem last_two_frames_identical_witness :
    ∃ st g,
      (∀ fuel : Nat, (2 : Int).toNat + 2 ≤ fuel →
        run_threads fuel [0, 1, 0, 0, 1, 0, 0, 1, 0] [5, 5, 5, 5, 5, 5, 5, 5, 5] 3 3 2 2
          (fun _ => [1, 0]) = some st) ∧
      (∀ g1, ((2 : Int) - 1, g1) ∈ st.printed ↔ g1 = g) ∧
      (∀ g1, ((2 : Int), g1) ∈ st.printed ↔ g1 = g) :=
  last_two_frames_identical [0, 1, 0, 0, 1, 0, 0, 1, 0] [5, 5, 5, 5, 5, 5, 5, 5, 5]
    3 3 2 2 (fun _ => [1, 0]) (by decide) (by decide) (by decide) (by decide) (by decide)
    (by decide) (by decide) (by decide) (by decide) (by decide)
    (fun _ => (by decide : List.Perm [1, 0] (List.range (Int.toNat 2))))

/-- C6, as stated, fails: on the 3 × 3 torus every cell has the whole column of
the configuration `3 3 3, 1 0, 1 1, 1 2` among its neighbours, so after one
generation the grid is not the horizontal triple, and after two generations it
is not the vertical triple. -/
theorem blinker_3x3_not_periodic :
    initialize_world [3, 3, 3, 1, 0, 1, 1, 1, 2] = some ([0, 1, 0, 0, 1, 0, 0, 1, 0], 3, 3) ∧
      generations 3 3 1 [0, 1, 0, 0, 1, 0, 0, 1, 0] ≠ some [0, 0, 0, 1, 1, 1, 0, 0, 0] ∧
      generations 3 3 2 [0, 1, 0, 0, 1, 0, 0, 1, 0] ≠ some [0, 1, 0, 0, 1, 0, 0, 1, 0] := by
  decide

/-- C6, amended. For the configuration tokens `3 3 3, 1 0, 1 1, 1 2`
`initialize_world` gives the 3 × 3 grid whose live cells are column 1 of the rows
0, 1 and 2; after one whole-grid generation all nine cells are live, and after
two generations no cell is live. -/
theorem blinker_3x3_fills_then_dies :
    initialize_world [3, 3, 3, 1, 0, 1, 1, 1, 2] = some ([0, 1, 0, 0, 1, 0, 0, 1, 0], 3, 3) ∧
      generations 3 3 1 [0, 1, 0, 0, 1, 0, 0, 1, 0] = some [1, 1, 1, 1, 1, 1, 1, 1, 1] ∧
      generations 3 3 2 [0, 1, 0, 0, 1, 0, 0, 1, 0] = some [0, 0, 0, 0, 0, 0, 0, 0, 0] := by
  decide

/-! ## Frame and safety of `update_world` -/

theorem readCell_eq_none_iff (a : List Int) (i : Int) :
    readCell a i = none ↔ (i < 0 ∨ (a.length : Int) ≤ i) := by
  unfold readCell
  by_cases h0 : 0 ≤ i
  · rw [if_pos h0, List.getElem?_eq_none_iff]
    constructor
    · intro h
      exact Or.inr (by omega)
    · rintro (h | h)
      · omega
      · omega
  · rw [if_neg h0]
    exact ⟨fun _ => Or.inl (by omega), fun _ => rfl⟩

theorem writeCell_eq_none_iff (a : List Int) (i v : Int) :
    writeCell a i v = none ↔ (i < 0 ∨ (a.length : Int) ≤ i) := by
  unfold writeCell
  by_cases h : 0 ≤ i ∧ i < (a.length : Int)
  · rw [if_pos h]
    constructor
    · intro hc
      exact absurd hc (by simp)
    · intro hc
      omega
  · rw [if_neg h]
    exact ⟨fun _ => by omega, fun _ => rfl⟩

/-- C11, as stated, fails on the grid of one column and `2^30 + 1` rows (buffers
of `W * H` cells, the row range `[2^30 - 1, 2^30)`): `row + height` is `2^31`, an
`int` holds `-2^31`, and the call accesses its buffers at the index `-1073741823`
instead of returning with the cells the claim describes. -/
theorem update_world_frame_overflow :
    ((List.replicate 1073741825 (0 : Int)).length : Int) = 1 * 1073741825 ∧
      (0 : Int) ≤ 1073741823 ∧ (1073741823 : Int) ≤ 1073741824 ∧
      (1073741824 : Int) ≤ 1073741825 ∧
      translate_to_1D 1073741823 0 1 1073741825 = -1073741823 ∧
      update_world_buffers (List.replicate 1073741825 0) (List.replicate 1073741825 0)
        1 1073741825 1073741823 1073741824 = none :=
  ⟨by rw [List.length_replicate]; rfl, by decide, by decide, by decide, by decide,
    by simp only [update_world_buffers, update_world_row_overflow, Option.none_bind,
      Option.bind_none]⟩

/-- C11, amended. For `W, H ≥ 1` with `2 * W ≤ INT_MAX`, `2 * H ≤ INT_MAX` and
`W * H ≤ INT_MAX`, buffers of `W * H` cells and `0 ≤ start_row ≤ end_row ≤ H`,
`update_world` returns with `world_copy` as it was; every cell of `world` in a
row outside `[start_row, end_row)` is as it was; and the cells of the rows inside
the range do not depend on the prior content of `world`: from any other `world`
of the same size the call leaves the same values there. -/
theorem update_world_frame (world world_copy : List Int) (W H start_row end_row : Int)
    (hW : 1 ≤ W) (hH : 1 ≤ H) (hW2 : 2 * W ≤ INT_MAX) (hH2 : 2 * H ≤ INT_MAX)
    (hWH : W * H ≤ INT_MAX) (hwlen : (world.length : Int) = W * H)
    (hclen : (world_copy.length : Int) = W * H) (hs : 0 ≤ start_row)
    (hse : start_row ≤ end_row) (he : end_row ≤ H) :
    ∃ w1, update_world_buffers world world_copy W H start_row end_row
        = some (w1, world_copy) ∧
      w1.length = world.length ∧
      (∀ row col, 0 ≤ row → row < H → 0 ≤ col → col < W →
        ¬ (start_row ≤ row ∧ row < end_row) →
        readCell w1 (row * W + col) = readCell world (row * W + col)) ∧
      (∀ world2 : List Int, (world2.length : Int) = W * H →
        ∃ w2, update_world world2 world_copy W H start_row end_row = some w2 ∧
          ∀ row col, start_row ≤ row → row < end_row → 0 ≤ col → col < W →
            readCell w1 (row * W + col) = readCell w2 (row * W + col)) := by
  obtain ⟨w1, hw1, hl1, hc1⟩ := update_world_cell world world_copy W H start_row end_row
    (by omega) (by omega) ⟨hW2, hH2, hWH⟩ hwlen hclen hs hse he
  refine ⟨w1, by simp [update_world_buffers, hw1], hl1, ?_, ?_⟩
  · intro row col hr0 hr hc0 hc hout
    rw [hc1 row col hr0 hr hc0 hc, if_neg hout]
  · intro world2 hlen2
    obtain ⟨w2, hw2, _, hc2⟩ := update_world_cell world2 world_copy W H start_row end_row
      (by omega) (by omega) ⟨hW2, hH2, hWH⟩ hlen2 hclen hs hse he
    refine ⟨w2, hw2, fun row col hr0 hr hc0 hc => ?_⟩
    rw [hc1 row col (by omega) (by omega) hc0 hc, hc2 row col (by omega) (by omega) hc0 hc,
      if_pos ⟨hr0, hr⟩, if_pos ⟨hr0, hr⟩]

theorem update_world_frame_witness :
    ∃ w1, update_world_buffers [0, 1, 0, 0, 1, 0, 0, 1, 0, 0, 0, 0]
        [1, 1, 0, 0, 1, 0, 0, 1, 0, 0, 0, 1] 3 4 1 3
        = some (w1, [1, 1, 0, 0, 1, 0, 0, 1, 0, 0, 0, 1]) ∧
      w1.length = [(0 : Int), 1, 0, 0, 1, 0, 0, 1, 0, 0, 0, 0].length ∧
      (∀ row col, 0 ≤ row → row < 4 → 0 ≤ col → col < (3 : Int) →
        ¬ ((1 : Int) ≤ row ∧ row < 3) →
        readCell w1 (row * 3 + col)
          = readCell [0, 1, 0, 0, 1, 0, 0, 1, 0, 0, 0, 0] (row * 3 + col)) ∧
      (∀ world2 : List Int, (world2.length : Int) = 3 * 4 →
        ∃ w2, update_world world2 [1, 1, 0, 0, 1, 0, 0, 1, 0, 0, 0, 1] 3 4 1 3 = some w2 ∧
          ∀ row col, (1 : Int) ≤ row → row < 3 → 0 ≤ col → col < (3 : Int) →
            readCell w1 (row * 3 + col) = readCell w2 (row * 3 + col)) :=
  update_world_frame [0, 1, 0, 0, 1, 0, 0, 1, 0, 0, 0, 0]
    [1, 1, 0, 0, 1, 0, 0, 1, 0, 0, 0, 1] 3 4 1 3 (by decide) (by decide) (by decide)
    (by decide) (by decide) (by decide) (by decide) (by decide) (by decide) (by decide)

/-- C17, as stated, fails on the grid of one column and `2^30 + 1` rows, whose
size `W * H` is within the `int` range: for the row `2^30 - 1` of the range
`[2^30 - 1, 2^30)` the sum `row + height` is `2^31`, an `int` holds `-2^31`,
`(row + height) % height` is negative, the index is `-1073741823`, and
`update_world` accesses its buffers outside `[0, W * H)`. -/
theorem update_world_index_overflow :
    1 * 1073741825 ≤ INT_MAX ∧
      ((List.replicate 1073741825 (0 : Int)).length : Int) = 1 * 1073741825 ∧
      Int.tmod (wrap_int (1073741823 + 1073741825)) 1073741825 = -1073741823 ∧
      translate_to_1D 1073741823 0 1 1073741825 = -1073741823 ∧
      update_world (List.replicate 1073741825 0) (List.replicate 1073741825 0)
        1 1073741825 1073741823 1073741824 = none :=
  ⟨by decide, by rw [List.length_replicate]; rfl, by decide, by decide,
    update_world_row_overflow _ _⟩

/-- C17, amended. For `W, H ≥ 1` with `2 * W ≤ INT_MAX`, `2 * H ≤ INT_MAX` and
`W * H ≤ INT_MAX`, buffers of `W * H` cells and `0 ≤ start_row ≤ end_row ≤ H`: for
every cell `(row, col)` that the loops of `update_world` visit and every offset in
`{-1, 0, 1}²` (the offset `(0, 0)` gives the index that is read and written for
the cell itself), the coordinates handed to `translate_to_1D` are the exact sums
and lie in `[-1, H]` and `[-1, W]`, both `(x + n) % n` are non-negative, and the
index lies in `[0, W * H)`, so that the read of `world_copy` and the write of
`world` there succeed; and the call as a whole returns, a read or write outside a
buffer being the only failure of the model. -/
theorem update_world_in_bounds (world world_copy : List Int) (W H start_row end_row : Int)
    (hW : 1 ≤ W) (hH : 1 ≤ H) (hW2 : 2 * W ≤ INT_MAX) (hH2 : 2 * H ≤ INT_MAX)
    (hWH : W * H ≤ INT_MAX) (hwlen : (world.length : Int) = W * H)
    (hclen : (world_copy.length : Int) = W * H) (hs : 0 ≤ start_row)
    (hse : start_row ≤ end_row) (he : end_row ≤ H) :
    (∀ row col d_row d_col, start_row ≤ row → row < end_row → 0 ≤ col → col < W →
      -1 ≤ d_row → d_row ≤ 1 → -1 ≤ d_col → d_col ≤ 1 →
      wrap_int (row + d_row) = row + d_row ∧ wrap_int (col + d_col) = col + d_col ∧
      (-1 ≤ row + d_row ∧ row + d_row ≤ H) ∧ (-1 ≤ col + d_col ∧ col + d_col ≤ W) ∧
      0 ≤ Int.tmod (wrap_int (row + d_row + H)) H ∧
      0 ≤ Int.tmod (wrap_int (col + d_col + W)) W ∧
      0 ≤ translate_to_1D (row + d_row) (col + d_col) W H ∧
      translate_to_1D (row + d_row) (col + d_col) W H < W * H ∧
      readCell world_copy (translate_to_1D (row + d_row) (col + d_col) W H) ≠ none ∧
      ∀ v, writeCell world (translate_to_1D (row + d_row) (col + d_col) W H) v ≠ none) ∧
    (∃ w1, update_world world world_copy W H start_row end_row = some w1) ∧
    (∀ (a : List Int) (i : Int), readCell a i = none ↔ (i < 0 ∨ (a.length : Int) ≤ i)) ∧
    (∀ (a : List Int) (i v : Int),
      writeCell a i v = none ↔ (i < 0 ∨ (a.length : Int) ≤ i)) := by
  have hW3 : 2 * W ≤ 2147483647 := hW2
  have hH3 : 2 * H ≤ 2147483647 := hH2
  refine ⟨?_, ?_, readCell_eq_none_iff, writeCell_eq_none_iff⟩
  · intro row col d_row d_col hr0 hr hc0 hc h1 h2 h3 h4
    have hspec := translate_to_1D_eq_spec (row + d_row) (col + d_col) W H (by omega)
      (by omega) (by omega) (by omega) (le_int_max _ (by omega)) (le_int_max _ (by omega)) hWH
    have hb := spec_index_bounds (row + d_row) (col + d_col) W H (by omega) (by omega)
    rw [← hspec] at hb
    have hm1 : 0 ≤ Int.tmod (wrap_int (row + d_row + H)) H := by
      rw [wrap_int_eq _ (int_min_le _ (by omega)) (le_int_max _ (by omega)),
        Int.tmod_eq_emod (by omega) (by omega)]
      exact Int.emod_nonneg _ (by omega)
    have hm2 : 0 ≤ Int.tmod (wrap_int (col + d_col + W)) W := by
      rw [wrap_int_eq _ (int_min_le _ (by omega)) (le_int_max _ (by omega)),
        Int.tmod_eq_emod (by omega) (by omega)]
      exact Int.emod_nonneg _ (by omega)
    refine ⟨wrap_int_eq _ (int_min_le _ (by omega)) (le_int_max _ (by omega)),
      wrap_int_eq _ (int_min_le _ (by omega)) (le_int_max _ (by omega)),
      ⟨by omega, by omega⟩, ⟨by omega, by omega⟩, hm1, hm2, hb.1, hb.2, ?_, ?_⟩
    · intro hnone
      have := (readCell_eq_none_iff _ _).1 hnone
      omega
    · intro v hnone
      have := (writeCell_eq_none_iff _ _ v).1 hnone
      omega
  · obtain ⟨w1, hw1, _⟩ := update_world_cell world world_copy W H start_row end_row
      (by omega) (by omega) ⟨hW2, hH2, hWH⟩ hwlen hclen hs hse he
    exact ⟨w1, hw1⟩

theorem update_world_in_bounds_witness :
    (∀ row col d_row d_col, (1 : Int) ≤ row → row < 3 → 0 ≤ col → col < (3 : Int) →
      -1 ≤ d_row → d_row ≤ 1 → -1 ≤ d_col → d_col ≤ 1 →
      wrap_int (row + d_row) = row + d_row ∧ wrap_int (col + d_col) = col + d_col ∧
      (-1 ≤ row + d_row ∧ row + d_row ≤ 4) ∧ (-1 ≤ col + d_col ∧ col + d_col ≤ 3) ∧
      0 ≤ Int.tmod (wrap_int (row + d_row + 4)) 4 ∧
      0 ≤ Int.tmod (wrap_int (col + d_col + 3)) 3 ∧
      0 ≤ translate_to_1D (row + d_row) (col + d_col) 3 4 ∧
      translate_to_1D (row + d_row) (col + d_col) 3 4 < 3 * 4 ∧
      readCell [1, 1, 0, 0, 1, 0, 0, 1, 0, 0, 0, 1]
        (translate_to_1D (row + d_row) (col + d_col) 3 4) ≠ none ∧
      ∀ v, writeCell [0, 1, 0, 0, 1, 0, 0, 1, 0, 0, 0, 0]
        (translate_to_1D (row + d_row) (col + d_col) 3 4) v ≠ none) ∧
    (∃ w1, update_world [0, 1, 0, 0, 1, 0, 0, 1, 0, 0, 0, 0]
      [1, 1, 0, 0, 1, 0, 0, 1, 0, 0, 0, 1] 3 4 1 3 = some w1) ∧
    (∀ (a : List Int) (i : Int), readCell a i = none ↔ (i < 0 ∨ (a.length : Int) ≤ i)) ∧
    (∀ (a : List Int) (i v : Int),
      writeCell a i v = none ↔ (i < 0 ∨ (a.length : Int) ≤ i)) :=
  update_world_in_bounds [0, 1, 0, 0, 1, 0, 0, 1, 0, 0, 0, 0]
    [1, 1, 0, 0, 1, 0, 0, 1, 0, 0, 0, 1] 3 4 1 3 (by decide) (by decide) (by decide)
    (by decide) (by decide) (by decide) (by decide) (by decide) (by decide) (by decide)

/-! ## Construction and invariant of the barrier -/

/-- C12, as stated, fails for the party count `4294967295`, a value of
`unsigned int`: `pthread_barrier_init` returns `0`, but the `int` field `tripCount`
holds `-1`, not the party count. -/
theorem pthread_barrier_init_overflow :
    (pthread_barrier_init ⟨0, 0⟩ 4294967295 0 0).rc = 0 ∧
      (pthread_barrier_init ⟨0, 0⟩ 4294967295 0 0).barrier.tripCount = -1 ∧
      (pthread_barrier_init ⟨0, 0⟩ 4294967295 0 0).barrier.tripCount
        ≠ ((4294967295 : Nat) : Int) := by
  decide

/-- C12, amended. `pthread_barrier_init` with party count `0` returns `-1` with
`errno` set to `EINVAL` and leaves the barrier as it was; with a party count `P`,
`1 ≤ P ≤ INT_MAX`, the mutex and the condition variable initialised successfully,
it returns `0` and leaves `tripCount = P` and `count = 0`; so, these two
initialisations succeeding, it fails exactly when the party count is `0`. -/
theorem pthread_barrier_init_result (b0 : pthread_barrier_t) :
    (∀ mutex_init cond_init : Int,
      (pthread_barrier_init b0 0 mutex_init cond_init).rc = -1 ∧
      (pthread_barrier_init b0 0 mutex_init cond_init).einval = true ∧
      (pthread_barrier_init b0 0 mutex_init cond_init).barrier = b0) ∧
    (∀ P : Nat, 1 ≤ P → (P : Int) ≤ INT_MAX →
      (pthread_barrier_init b0 P 0 0).rc = 0 ∧
      (pthread_barrier_init b0 P 0 0).barrier.tripCount = (P : Int) ∧
      (pthread_barrier_init b0 P 0 0).barrier.count = 0) ∧
    (∀ P : Nat, (pthread_barrier_init b0 P 0 0).rc ≠ 0 ↔ P = 0) := by
  refine ⟨fun m c => ?_, fun P hP hmax => ?_, fun P => ?_⟩
  · simp [pthread_barrier_init]
  · rw [pthread_barrier_init_fits P hP hmax b0]
    exact ⟨rfl, rfl, rfl⟩
  · by_cases hP : P = 0
    · simp [pthread_barrier_init, hP]
    · simp [pthread_barrier_init, hP]

theorem pthread_barrier_init_result_witness :
    (pthread_barrier_init ⟨7, 9⟩ 3 0 0).rc = 0 ∧
      (pthread_barrier_init ⟨7, 9⟩ 3 0 0).barrier.tripCount = ((3 : Nat) : Int) ∧
      (pthread_barrier_init ⟨7, 9⟩ 3 0 0).barrier.count = 0 :=
  (pthread_barrier_init_result ⟨7, 9⟩).2.1 3 (by decide) (by decide)

theorem barrier_after_add :
    ∀ (m n : Nat) (b : pthread_barrier_t),
      barrier_after (m + n) b = barrier_after n (barrier_after m b)
  | 0, n, b => by simp [barrier_after]
  | m + 1, n, b => by
    have e : m + 1 + n = (m + n) + 1 := by omega
    rw [e]
    simp only [barrier_after]
    exact barrier_after_add m n _

theorem barrier_after_climb (P : Int) (hmax : P ≤ INT_MAX) :
    ∀ (n : Nat) (b : pthread_barrier_t), b.tripCount = P → 0 ≤ b.count →
      b.count + (n : Int) < P →
      barrier_after n b = { count := b.count + (n : Int), tripCount := P }
  | 0, b, ht, _, _ => by
    cases b
    simp only [barrier_after] at *
    simp [ht]
  | n + 1, b, ht, h0, hlt => by
    have hmax1 : P ≤ 2147483647 := hmax
    have hwrap : wrap_int (b.count + 1) = b.count + 1 :=
      wrap_int_eq _ (int_min_le _ (by omega)) (le_int_max _ (by push_cast at hlt; omega))
    have hstep : (pthread_barrier_wait b).1 = { count := b.count + 1, tripCount := P } := by
      unfold pthread_barrier_wait
      simp only [ht, hwrap]
      rw [if_neg (by push_cast at hlt; omega)]
    simp only [barrier_after]
    rw [barrier_after_climb P hmax n _ (by rw [hstep]) (by rw [hstep]; show 0 ≤ b.count + 1; omega)
      (by rw [hstep]; push_cast at hlt ⊢; omega), hstep]
    simp only [pthread_barrier_t.mk.injEq, and_true]
    push_cast
    ring

theorem barrier_after_one (b : pthread_barrier_t) :
    barrier_after 1 b = (pthread_barrier_wait b).1 := rfl

theorem pthread_barrier_wait_last (Q : Nat) (hQ : (Q : Int) + 1 ≤ 2147483647)
    (b : pthread_barrier_t) (hc : b.count = (Q : Int)) (ht : b.tripCount = (Q : Int) + 1) :
    (pthread_barrier_wait b).1 = { count := 0, tripCount := (Q : Int) + 1 } := by
  have hwrap : wrap_int ((Q : Int) + 1) = (Q : Int) + 1 :=
    wrap_int_eq _ (int_min_le _ (by omega)) (le_int_max _ hQ)
  unfold pthread_barrier_wait
  simp only [hc, ht, hwrap]
  rw [if_pos (le_refl _)]

theorem barrier_after_round (P : Nat) (hP : 1 ≤ P) (hmax : (P : Int) ≤ INT_MAX)
    (b0 : pthread_barrier_t) :
    barrier_after P { b0 with tripCount := (P : Int), count := 0 }
      = { b0 with tripCount := (P : Int), count := 0 } := by
  have hmax1 : (P : Int) ≤ 2147483647 := hmax
  obtain ⟨Q, rfl⟩ : ∃ Q, P = Q + 1 := ⟨P - 1, by omega⟩
  have hQ : (Q : Int) + 1 ≤ 2147483647 := by push_cast at hmax1; exact hmax1
  have hclimb := barrier_after_climb (((Q + 1 : Nat)) : Int) hmax Q
    { b0 with tripCount := ((Q + 1 : Nat) : Int), count := 0 } rfl le_rfl (by simp)
  rw [barrier_after_add Q 1, hclimb, barrier_after_one,
    pthread_barrier_wait_last Q hQ _ (by simp) (by push_cast; rfl)]
  push_cast
  rfl

theorem barrier_after_rounds (P : Nat) (hP : 1 ≤ P) (hmax : (P : Int) ≤ INT_MAX)
    (b0 : pthread_barrier_t) :
    ∀ m : Nat, barrier_after (m * P) { b0 with tripCount := (P : Int), count := 0 }
      = { b0 with tripCount := (P : Int), count := 0 }
  | 0 => by simp [barrier_after]
  | m + 1 => by
    have e : (m + 1) * P = m * P + P := by ring
    rw [e, barrier_after_add, barrier_after_rounds P hP hmax b0 m,
      barrier_after_round P hP hmax b0]

/-- C15, as stated, fails for the party count `4294967295`, a value of
`unsigned int`: after `pthread_barrier_init` the `int` field `tripCount` holds
`-1`, so `count < tripCount` and `tripCount = P` are both false, and the first
counter step returns `PTHREAD_BARRIER_SERIAL_THREAD` with `count` back at `0`. -/
theorem barrier_invariant_overflow :
    (pthread_barrier_init ⟨0, 0⟩ 4294967295 0 0).barrier.tripCount = -1 ∧
      ¬ ((pthread_barrier_init ⟨0, 0⟩ 4294967295 0 0).barrier.count
        < (pthread_barrier_init ⟨0, 0⟩ 4294967295 0 0).barrier.tripCount) ∧
      pthread_barrier_wait (pthread_barrier_init ⟨0, 0⟩ 4294967295 0 0).barrier
        = (⟨0, -1⟩, PTHREAD_BARRIER_SERIAL_THREAD) := by
  decide

/-- C15, amended. For a party count `P`, `1 ≤ P ≤ INT_MAX`: after
`pthread_barrier_init` the barrier satisfies `0 ≤ count < tripCount` and
`tripCount = P`; every counter step of `pthread_barrier_wait` keeps this, sets
`count` to `0` exactly when the incremented count reaches `P`, which is exactly
when it returns `PTHREAD_BARRIER_SERIAL_THREAD`, and otherwise adds `1` to
`count`; and after any number of rounds of `P` calls the barrier is what it was
after the initialisation. -/
theorem barrier_invariant (P : Nat) (hP : 1 ≤ P) (hmax : (P : Int) ≤ INT_MAX)
    (b0 : pthread_barrier_t) :
    (0 ≤ (pthread_barrier_init b0 P 0 0).barrier.count ∧
      (pthread_barrier_init b0 P 0 0).barrier.count
        < (pthread_barrier_init b0 P 0 0).barrier.tripCount ∧
      (pthread_barrier_init b0 P 0 0).barrier.tripCount = (P : Int)) ∧
    (∀ b : pthread_barrier_t, 0 ≤ b.count → b.count < b.tripCount →
      b.tripCount = (P : Int) →
      (0 ≤ (pthread_barrier_wait b).1.count ∧
        (pthread_barrier_wait b).1.count < (pthread_barrier_wait b).1.tripCount ∧
        (pthread_barrier_wait b).1.tripCount = (P : Int)) ∧
      ((pthread_barrier_wait b).1.count = 0 ↔ b.count + 1 = (P : Int)) ∧
      ((pthread_barrier_wait b).2 = PTHREAD_BARRIER_SERIAL_THREAD ↔ b.count + 1 = (P : Int)) ∧
      (b.count + 1 ≠ (P : Int) →
        (pthread_barrier_wait b).1.count = b.count + 1 ∧ (pthread_barrier_wait b).2 = 0)) ∧
    (∀ m : Nat, barrier_after (m * P) (pthread_barrier_init b0 P 0 0).barrier
      = (pthread_barrier_init b0 P 0 0).barrier) := by
  have hmax1 : (P : Int) ≤ 2147483647 := hmax
  rw [pthread_barrier_init_fits P hP hmax b0]
  refine ⟨⟨le_rfl, by simp; omega, rfl⟩, ?_, barrier_after_rounds P hP hmax b0⟩
  intro b h0 hlt ht
  have hwrap : wrap_int (b.count + 1) = b.count + 1 :=
    wrap_int_eq _ (int_min_le _ (by omega)) (le_int_max _ (by omega))
  unfold pthread_barrier_wait
  simp only [ht, hwrap]
  by_cases hreach : b.count + 1 = (P : Int)
  · rw [if_pos (by omega)]
    simp [hreach, PTHREAD_BARRIER_SERIAL_THREAD]
    omega
  · rw [if_neg (by omega)]
    simp [hreach, PTHREAD_BARRIER_SERIAL_THREAD]
    omega

theorem barrier_invariant_witness :
    (0 ≤ (pthread_barrier_init ⟨7, 9⟩ 3 0 0).barrier.count ∧
      (pthread_barrier_init ⟨7, 9⟩ 3 0 0).barrier.count
        < (pthread_barrier_init ⟨7, 9⟩ 3 0 0).barrier.tripCount ∧
      (pthread_barrier_init ⟨7, 9⟩ 3 0 0).barrier.tripCount = ((3 : Nat) : Int)) ∧
    (∀ b : pthread_barrier_t, 0 ≤ b.count → b.count < b.tripCount →
      b.tripCount = ((3 : Nat) : Int) →
      (0 ≤ (pthread_barrier_wait b).1.count ∧
        (pthread_barrier_wait b).1.count < (pthread_barrier_wait b).1.tripCount ∧
        (pthread_barrier_wait b).1.tripCount = ((3 : Nat) : Int)) ∧
      ((pthread_barrier_wait b).1.count = 0 ↔ b.count + 1 = ((3 : Nat) : Int)) ∧
      ((pthread_barrier_wait b).2 = PTHREAD_BARRIER_SERIAL_THREAD ↔
        b.count + 1 = ((3 : Nat) : Int)) ∧
      (b.count + 1 ≠ ((3 : Nat) : Int) →
        (pthread_barrier_wait b).1.count = b.count + 1 ∧ (pthread_barrier_wait b).2 = 0)) ∧
    (∀ m : Nat, barrier_after (m * 3) (pthread_barrier_init ⟨7, 9⟩ 3 0 0).barrier
      = (pthread_barrier_init ⟨7, 9⟩ 3 0 0).barrier) :=
  barrier_invariant 3 (by decide) (by decide) ⟨7, 9⟩

/-! ## The initial grid -/

theorem readCell_replicate_zero (n : Nat) (i : Int) (h0 : 0 ≤ i) (h1 : i < (n : Int)) :
    readCell (List.replicate n (0 : Int)) i = some 0 := by
  have hlt : i.toNat < n := by omega
  simp [readCell, h0, List.getElem?_replicate, hlt]

theorem read_live_cells_cells (R C : Int) (hR : 1 ≤ R) (hC : 1 ≤ C) :
    ∀ (pairs : List (Int × Int)) (rest world : List Int),
      (∀ p ∈ pairs, -C ≤ p.1 ∧ p.1 + C ≤ INT_MAX ∧ -R ≤ p.2 ∧ p.2 + R ≤ INT_MAX) →
      R * C ≤ INT_MAX → (world.length : Int) = R * C →
      ∃ w1, read_live_cells R C pairs.length
          (pairs.flatMap (fun p => [p.1, p.2]) ++ rest, world) = some (rest, w1) ∧
        w1.length = world.length ∧
        ∀ i, 0 ≤ i →
          ((∃ p ∈ pairs, i = translate_to_1D p.2 p.1 C R) → readCell w1 i = some 1) ∧
          ((¬ ∃ p ∈ pairs, i = translate_to_1D p.2 p.1 C R) →
            readCell w1 i = readCell world i)
  | [], rest, world, _, _, _ => by
    refine ⟨world, by simp [read_live_cells], rfl, fun i _ => ⟨?_, fun _ => rfl⟩⟩
    rintro ⟨p, hp, _⟩
    exact absurd hp (List.not_mem_nil p)
  | (c, r) :: ps, rest, world, hb, hsize, hlen => by
    obtain ⟨hc, hcmax, hr, hrmax⟩ := hb (c, r) (List.mem_cons_self _ _)
    have hc1 : c + C ≤ 2147483647 := hcmax
    have hr1 : r + R ≤ 2147483647 := hrmax
    have hs1 : R * C ≤ 2147483647 := hsize
    have hCle : C ≤ 2147483647 := by nlinarith
    have hRle : R ≤ 2147483647 := by nlinarith
    have hwc : wrap_int c = c := wrap_int_eq c (int_min_le _ (by omega)) (le_int_max _ (by omega))
    have hwr : wrap_int r = r := wrap_int_eq r (int_min_le _ (by omega)) (le_int_max _ (by omega))
    have hspec := translate_to_1D_eq_spec r c C R (by omega) (by omega) hr hc hrmax hcmax
      (by rw [mul_comm]; exact hsize)
    have hbd := spec_index_bounds r c C R (by omega) (by omega)
    rw [← hspec] at hbd
    obtain ⟨w0, hw0⟩ := writeCell_some world (translate_to_1D r c C R) 1 hbd.1
      (by rw [hlen]; nlinarith [hbd.2])
    have hl0 := writeCell_length _ _ _ _ hw0
    obtain ⟨w1, hw1, hl1, hcells⟩ := read_live_cells_cells R C hR hC ps rest w0
      (fun p hp => hb p (List.mem_cons_of_mem _ hp)) hsize (by rw [hl0]; exact hlen)
    refine ⟨w1, ?_, by rw [hl1, hl0], fun i hi => ?_⟩
    · simp only [List.length_cons, List.flatMap_cons, List.cons_append, List.nil_append,
        read_live_cells, hwc, hwr, hw0, Option.some_bind, Option.bind_some]
      exact hw1
    · obtain ⟨hyes, hno⟩ := hcells i hi
      have hread := readCell_writeCell world w0 _ i 1 hw0 hi
      constructor
      · rintro ⟨p, hp, hpi⟩
        by_cases hps : ∃ q ∈ ps, i = translate_to_1D q.2 q.1 C R
        · exact hyes hps
        · rw [hno hps, hread]
          rcases List.mem_cons.1 hp with heq | hmem
          · subst heq
            rw [if_pos hpi]
          · exact absurd ⟨p, hmem, hpi⟩ hps
      · intro hnone
        have hps : ¬ ∃ q ∈ ps, i = translate_to_1D q.2 q.1 C R := by
          rintro ⟨q, hq, hqi⟩
          exact hnone ⟨q, List.mem_cons_of_mem _ hq, hqi⟩
        rw [hno hps, hread, if_neg]
        intro hi0
        exact hnone ⟨(c, r), List.mem_cons_self _ _, hi0⟩

/-- C13, as stated, fails where an `int` overflows.  On the tokens
`3 3 1 0 2147483646` (a well-formed sequence with `R = C = 3`, one pair, `c = 0 ≥ -C`
and `r = 2147483646 ≥ -R`) the sum `r + num_rows` wraps, `translate_to_1D` returns
`-3`, and `initialize_world` writes outside the grid instead of yielding one.  On
the tokens `641 6700417 0` the product `num_rows * num_cols` is `2^32 + 1`, which
wraps to `1`, and the grid that is returned has one cell, not `641 * 6700417`. -/
theorem initialize_world_overflow :
    translate_to_1D 2147483646 0 3 3 = -3 ∧
      initialize_world [3, 3, 1, 0, 2147483646] = none ∧
      initialize_world [641, 6700417, 0] = some ([0], 641, 6700417) := by
  decide

/-- C13, amended.  For `R, C ≥ 1` with `R * C ≤ INT_MAX`, at most `INT_MAX` pairs,
and pairs `(c_k, r_k)` with `-C ≤ c_k ≤ INT_MAX - C` and `-R ≤ r_k ≤ INT_MAX - R`,
on the tokens `R`, `C`, the number of pairs, and then each pair as `c_k r_k`,
`initialize_world` returns a grid of `R * C` cells with `R` rows and `C` columns;
every cell of it holds `0` or `1`, and holds `1` iff its index is
`translate_to_1D(r_k, c_k, C, R)` for some `k`: the first integer of a pair is the
column, the second the row. -/
theorem initialize_world_cells (R C : Int) (pairs : List (Int × Int)) (hR : 1 ≤ R)
    (hC : 1 ≤ C) (hsize : R * C ≤ INT_MAX) (hn : (pairs.length : Int) ≤ INT_MAX)
    (hb : ∀ p ∈ pairs, -C ≤ p.1 ∧ p.1 + C ≤ INT_MAX ∧ -R ≤ p.2 ∧ p.2 + R ≤ INT_MAX) :
    ∃ world, initialize_world
        (R :: C :: (pairs.length : Int) :: pairs.flatMap (fun p => [p.1, p.2]))
        = some (world, R, C) ∧
      (world.length : Int) = R * C ∧
      ∀ i, 0 ≤ i → i < R * C →
        ∃ v, readCell world i = some v ∧ (v = 0 ∨ v = 1) ∧
          (v = 1 ↔ ∃ p ∈ pairs, i = translate_to_1D p.2 p.1 C R) := by
  have hsize0 : 0 ≤ R * C := by positivity
  have hsize1 : R * C ≤ 2147483647 := hsize
  have hR1 : R ≤ R * C := by nlinarith
  have hC1 : C ≤ R * C := by nlinarith
  have hwR : wrap_int R = R := wrap_int_eq R (int_min_le _ (by omega)) (le_int_max _ (by omega))
  have hwC : wrap_int C = C := wrap_int_eq C (int_min_le _ (by omega)) (le_int_max _ (by omega))
  have hwn : wrap_int (pairs.length : Int) = (pairs.length : Int) :=
    wrap_int_eq _ (int_min_le _ (by omega)) hn
  have hws : wrap_int (R * C) = R * C :=
    wrap_int_eq _ (int_min_le _ (by omega)) hsize
  have hlen0 : ((List.replicate (R * C).toNat (0 : Int)).length : Int) = R * C := by
    simp [hsize0]
  obtain ⟨w1, hw1, hl1, hcells⟩ := read_live_cells_cells R C hR hC pairs []
    (List.replicate (R * C).toNat (0 : Int)) hb hsize hlen0
  rw [List.append_nil] at hw1
  refine ⟨w1, ?_, by rw [hl1]; exact hlen0, fun i hi0 hi1 => ?_⟩
  · simp only [initialize_world, hwR, hwC, hwn, hws, if_neg (show ¬ R * C < 0 by omega),
      Int.toNat_ofNat, hw1, Option.some_bind, Option.bind_some]
  · obtain ⟨hyes, hno⟩ := hcells i hi0
    by_cases hex : ∃ p ∈ pairs, i = translate_to_1D p.2 p.1 C R
    · exact ⟨1, hyes hex, Or.inr rfl, fun _ => hex, fun _ => rfl⟩
    · refine ⟨0, ?_, Or.inl rfl, fun h => absurd h (by decide), fun h => absurd h hex⟩
      rw [hno hex]
      exact readCell_replicate_zero _ i hi0 (by omega)

theorem initialize_world_cells_witness :
    ∃ world, initialize_world
        (3 :: 4 :: (([(1, 0), (-4, -3), (9, 7)] : List (Int × Int)).length : Int) ::
          ([(1, 0), (-4, -3), (9, 7)] : List (Int × Int)).flatMap (fun p => [p.1, p.2]))
        = some (world, 3, 4) ∧
      (world.length : Int) = 3 * 4 ∧
      ∀ i, 0 ≤ i → i < (3 : Int) * 4 →
        ∃ v, readCell world i = some v ∧ (v = 0 ∨ v = 1) ∧
          (v = 1 ↔ ∃ p ∈ ([(1, 0), (-4, -3), (9, 7)] : List (Int × Int)),
            i = translate_to_1D p.2 p.1 4 3) :=
  initialize_world_cells 3 4 [(1, 0), (-4, -3), (9, 7)] (by decide) (by decide) (by decide)
    (by decide) (by decide)

/-! ## The partition in closed form -/

/-- C14. For `H ≥ 0` and `P ≥ 1`, with `base = H / P` and `extra = H mod P`, the
partition loop of `run_threads` yields `P` ranges; worker `i` starts at
`i * base + min(i, extra)` and owns `base + 1` rows if `i < extra`, else `base`
rows.  When `P > H`, worker `i < H` owns the single row `i` and worker `i ≥ H`
owns the empty range `[H, H)`; and on an empty range `update_world` returns
`world` as it was. -/
theorem thread_ranges_closed_form (H P : Int) (hH : 0 ≤ H) (hP : 1 ≤ P) :
    (thread_ranges H P).length = P.toNat ∧
    (∀ i : Nat, i < P.toNat →
      (thread_ranges H P)[i]?
        = some ((i : Int) * (H / P) + min (i : Int) (H % P),
            (i : Int) * (H / P) + min (i : Int) (H % P)
              + (H / P + if (i : Int) < H % P then 1 else 0))) ∧
    (H < P → ∀ i : Nat, i < P.toNat →
      ((i : Int) < H → (thread_ranges H P)[i]? = some ((i : Int), (i : Int) + 1)) ∧
      (H ≤ (i : Int) → (thread_ranges H P)[i]? = some (H, H))) ∧
    (∀ (world world_copy : List Int) (W row : Int),
      update_world world world_copy W H row row = some world) := by
  have hd : Int.tdiv H P = H / P := Int.tdiv_eq_ediv hH (by omega)
  have hm : Int.tmod H P = H % P := Int.tmod_eq_emod hH (by omega)
  have hform : ∀ i : Nat, i < P.toNat →
      (thread_ranges H P)[i]?
        = some ((i : Int) * (H / P) + min (i : Int) (H % P),
            (i : Int) * (H / P) + min (i : Int) (H % P)
              + (H / P + if (i : Int) < H % P then 1 else 0)) := by
    intro i hi
    rw [thread_ranges_getElem H P hH hP i hi, range_start_succ, hd, hm]
    rfl
  refine ⟨thread_ranges_length H P, hform, ?_, ?_⟩
  · intro hlt i hi
    have hq : H / P = 0 := Int.ediv_eq_zero_of_lt hH hlt
    have hr : H % P = H := Int.emod_eq_of_lt hH hlt
    have h := hform i hi
    rw [hq, hr] at h
    constructor
    · intro hiH
      rw [h, if_pos hiH, min_eq_left (by omega)]
      simp
    · intro hiH
      rw [h, if_neg (by omega), min_eq_right hiH]
      simp
  · intro world world_copy W row
    exact cFor_empty _ row row world le_rfl

theorem thread_ranges_closed_form_witness :
    (thread_ranges 2 5).length = (5 : Int).toNat ∧
    (∀ i : Nat, i < (5 : Int).toNat →
      (thread_ranges 2 5)[i]?
        = some ((i : Int) * (2 / 5) + min (i : Int) (2 % 5),
            (i : Int) * (2 / 5) + min (i : Int) (2 % 5)
              + (2 / 5 + if (i : Int) < 2 % 5 then 1 else 0))) ∧
    ((2 : Int) < 5 → ∀ i : Nat, i < (5 : Int).toNat →
      ((i : Int) < 2 → (thread_ranges 2 5)[i]? = some ((i : Int), (i : Int) + 1)) ∧
      (2 ≤ (i : Int) → (thread_ranges 2 5)[i]? = some (2, 2))) ∧
    (∀ (world world_copy : List Int) (W row : Int),
      update_world world world_copy W 2 row row = some world) :=
  thread_ranges_closed_form 2 5 (by decide) (by decide)

/-! ## The rounds of one thread -/

theorem pthread_barrier_wait_returns (b : pthread_barrier_t) :
    (pthread_barrier_wait b).2 = 0 ∨ (pthread_barrier_wait b).2 = PTHREAD_BARRIER_SERIAL_THREAD := by
  unfold pthread_barrier_wait
  simp only
  by_cases h : wrap_int (b.count + 1) ≥ b.tripCount
  · rw [if_pos h]
    exact Or.inr rfl
  · rw [if_neg h]
    exact Or.inl rfl

theorem wait_checked_ok (bs : Nat → pthread_barrier_t) (st : List Event × Nat) :
    wait_checked (fun k => (pthread_barrier_wait (bs k)).2) st
      = some (st.1 ++ [Event.wait], st.2 + 1) := by
  unfold wait_checked
  have h := pthread_barrier_wait_returns (bs st.2)
  simp only
  rw [if_neg]
  rintro ⟨h0, h1⟩
  rcases h with h | h
  · exact h0 h
  · exact h1 h

theorem thread_round_eq (thread_id num_turns start_row end_row : Int)
    (bs : Nat → pthread_barrier_t) (turn : Int) (st : List Event × Nat) :
    thread_round thread_id num_turns start_row end_row
        (fun k => (pthread_barrier_wait (bs k)).2) turn st
      = some (st.1 ++ round_events thread_id num_turns start_row end_row turn, st.2 + 3) := by
  unfold thread_round round_events
  simp only [wait_checked_ok, Option.some_bind, Option.bind_some]
  by_cases h0 : thread_id = 0 <;> by_cases ht : turn < num_turns <;>
    simp [h0, ht, List.append_assoc]

theorem round_events_counts (thread_id num_turns start_row end_row turn : Int) :
    (round_events thread_id num_turns start_row end_row turn).count Event.wait = 3 ∧
      (round_events thread_id num_turns start_row end_row turn).count
          (Event.update start_row end_row)
        = if turn < num_turns then 1 else 0 := by
  unfold round_events
  by_cases h0 : thread_id = 0 <;> by_cases ht : turn < num_turns <;>
    simp [h0, ht, List.count_cons, List.count_append]

/-- C16, as stated, fails for `num_turns = INT_MAX` (a value that is `≥ 0`): the
condition `turn <= num_turns` holds of every `int` and `turn++` wraps, so the
thread (here thread 0 with the rows `[0, 3)`, on a barrier of one party) never
leaves its loop: it does not stop after `num_turns + 1` rounds, on any fuel. -/
theorem simulate_world_thread_no_end :
    (0 : Int) ≤ 2147483647 ∧
    ¬ ∃ (fuel : Nat) (res : List Event × Nat),
      simulate_world_thread fuel 0 2147483647 0 3
        (fun _ => (pthread_barrier_wait ⟨0, 1⟩).2) = some res := by
  refine ⟨by decide, ?_⟩
  rintro ⟨fuel, res, h⟩
  have hnone : simulate_world_thread fuel 0 2147483647 0 3
      (fun _ => (pthread_barrier_wait ⟨0, 1⟩).2) = none :=
    forLe_int_max_none _ fuel 0 _ (by decide)
  rw [hnone] at h
  exact Option.noConfusion h

/-- C16, amended.  For `0 ≤ num_turns < INT_MAX`, a thread running `simulate_world`
on this barrier (in whatever states the barrier is when the thread calls it) runs
to the end of its loop (on every fuel from `num_turns + 2` on); its events are
those of the rounds `turn = 0, …, num_turns`, one round after the other; it calls
`pthread_barrier_wait` `3 * (num_turns + 1)` times and `update_world` `num_turns`
times, whatever its thread id and its row range. -/
theorem simulate_world_thread_counts (thread_id num_turns start_row end_row : Int)
    (bs : Nat → pthread_barrier_t) (hN : 0 ≤ num_turns) (hmax : num_turns < INT_MAX) :
    ∃ events, (∀ fuel, num_turns.toNat + 2 ≤ fuel →
        simulate_world_thread fuel thread_id num_turns start_row end_row
          (fun k => (pthread_barrier_wait (bs k)).2)
          = some (events, 3 * (num_turns.toNat + 1))) ∧
      events = (List.range (num_turns.toNat + 1)).flatMap
        (fun (j : Nat) => round_events thread_id num_turns start_row end_row (j : Int)) ∧
      events.count Event.wait = 3 * (num_turns.toNat + 1) ∧
      events.count (Event.update start_row end_row) = num_turns.toNat := by
  have hloop := cFor_inv
    (thread_round thread_id num_turns start_row end_row
      (fun k => (pthread_barrier_wait (bs k)).2))
    (ThreadInv thread_id num_turns start_row end_row) 0 (num_turns + 1) ([], 0) (by omega)
    (by simp [ThreadInv])
    (by
      intro turn st h0 hlt hI
      obtain ⟨hev, hcalls, hwait, hupd⟩ := hI
      have hsucc : (turn + 1).toNat = turn.toNat + 1 := by omega
      have hturn : ((turn.toNat : Nat) : Int) = turn := by omega
      obtain ⟨hc1, hc2⟩ := round_events_counts thread_id num_turns start_row end_row turn
      refine ⟨_, thread_round_eq thread_id num_turns start_row end_row bs turn st, ?_, ?_,
        ?_, ?_⟩
      · simp only [hsucc, List.range_succ, List.flatMap_append, List.flatMap_cons,
          List.flatMap_nil, List.append_nil, hturn, hev]
      · simp only [hsucc, hcalls]
        omega
      · simp only [List.count_append, hwait, hc1, hsucc]
        omega
      · simp only [List.count_append, hupd, hc2, hsucc]
        split <;> omega)
  obtain ⟨st, hst, hev, hcalls, hwait, hupd⟩ := hloop
  have hsucc : (num_turns + 1).toNat = num_turns.toNat + 1 := by omega
  rw [hsucc] at hev hcalls hwait hupd
  refine ⟨st.1, ?_, hev, hwait, ?_⟩
  · intro fuel hfuel
    unfold simulate_world_thread
    rw [forLe_eq_cFor _ num_turns fuel _ hN hmax hfuel, hst, ← hcalls]
  · rw [hupd]
    omega

theorem simulate_world_thread_counts_witness :
    ∃ events, (∀ fuel, (2 : Int).toNat + 2 ≤ fuel →
        simulate_world_thread fuel 1 2 3 3
          (fun k => (pthread_barrier_wait ((fun _ => ⟨0, 2⟩) k)).2)
          = some (events, 3 * ((2 : Int).toNat + 1))) ∧
      events = (List.range ((2 : Int).toNat + 1)).flatMap
        (fun (j : Nat) => round_events 1 2 3 3 (j : Int)) ∧
      events.count Event.wait = 3 * ((2 : Int).toNat + 1) ∧
      events.count (Event.update 3 3) = (2 : Int).toNat :=
  simulate_world_thread_counts 1 2 3 3 (fun _ => ⟨0, 2⟩) (by decide) (by decide)

/-! ## Translation on the torus -/

theorem flat_div_mod (W r c : Int) (hc0 : 0 ≤ c) (hc : c < W) :
    (r * W + c) / W = r ∧ (r * W + c) % W = c := by
  have hW : W ≠ 0 := by omega
  constructor
  · rw [add_comm, Int.add_mul_ediv_right c r hW, Int.ediv_eq_zero_of_lt hc0 hc, zero_add]
  · rw [add_comm, Int.add_mul_emod_self, emod_small c W hc0 hc]

theorem spec_index_shift (W H x y d e : Int) :
    spec_index (x % H + d) (y % W + e) W H = spec_index (x + d) (y + e) W H := by
  unfold spec_index
  rw [Int.emod_add_emod, Int.emod_add_emod]

theorem shift_grid_length (W H a b : Int) (g : List Int) :
    (shift_grid W H a b g).length = (W * H).toNat := by
  simp [shift_grid]

theorem shift_grid_read (W H a b : Int) (g : List Int) (hW : 0 < W) (hH : 0 < H)
    (hg : (g.length : Int) = W * H) (x y : Int) :
    readCell (shift_grid W H a b g) (spec_index x y W H)
      = readCell g (spec_index (x - a) (y - b) W H) := by
  have hb := spec_index_bounds x y W H hW hH
  have hsrc := spec_index_bounds (x - a) (y - b) W H hW hH
  have hi : (spec_index x y W H).toNat < (W * H).toNat := by omega
  have hcast : (((spec_index x y W H).toNat : Nat) : Int) = spec_index x y W H := by omega
  have hdm := flat_div_mod W (x % H) (y % W) (Int.emod_nonneg y (by omega))
    (Int.emod_lt_of_pos y hW)
  have hsame : spec_index (spec_index x y W H / W - a) (spec_index x y W H % W - b) W H
      = spec_index (x - a) (y - b) W H := by
    have hxy : spec_index x y W H = x % H * W + y % W := rfl
    rw [hxy, hdm.1, hdm.2, sub_eq_add_neg, sub_eq_add_neg (y % W), spec_index_shift,
      ← sub_eq_add_neg, ← sub_eq_add_neg]
  have hj : (spec_index (x - a) (y - b) W H).toNat < g.length := by omega
  unfold shift_grid
  simp only [readCell, if_pos hb.1, if_pos hsrc.1, List.getElem?_map,
    List.getElem?_range hi, Option.map_some', hcast, hsame,
    List.getD_eq_getElem?_getD, List.getElem?_eq_getElem hj, Option.getD_some]

theorem live_neighbor_count_shift (W H a b : Int) (g : List Int) (hW : 0 < W) (hH : 0 < H)
    (hg : (g.length : Int) = W * H) (r c : Int) :
    live_neighbor_count (shift_grid W H a b g) W H r c
      = live_neighbor_count g W H ((r - a) % H) ((c - b) % W) := by
  unfold live_neighbor_count
  apply List.countP_congr
  intro d _
  rw [shift_grid_read W H a b g hW hH hg, spec_index_shift]
  have e1 : r + d.1 - a = r - a + d.1 := by ring
  have e2 : c + d.2 - b = c - b + d.2 := by ring
  rw [e1, e2]

theorem next_state_shift (W H a b : Int) (g : List Int) (hW : 0 < W) (hH : 0 < H)
    (hg : (g.length : Int) = W * H) (r c : Int) (hr0 : 0 ≤ r) (hr : r < H) (hc0 : 0 ≤ c)
    (hc : c < W) :
    next_state (shift_grid W H a b g) W H r c
      = next_state g W H ((r - a) % H) ((c - b) % W) := by
  unfold next_state
  rw [live_neighbor_count_shift W H a b g hW hH hg, ← spec_index_inside r c W H hr0 hr hc0 hc,
    shift_grid_read W H a b g hW hH hg]
  rfl

/-- C18, as stated, fails where an `int` overflows.  On the grid of one row and
`2^31 - 1` columns (`W, H ≥ 1`, `W * H` cells) and the shift `(0, 0)`, `col + width`
leaves the `int` range in the first cell and `update_world` over the rows `[0, H)`
reads `world_copy[-1]`: it yields no grid, neither on `g` nor on the shifted grid. -/
theorem full_generation_shift_overflow :
    ((List.replicate 2147483647 (0 : Int)).length : Int) = 2147483647 * 1 ∧
    update_world (List.replicate 2147483647 0) (List.replicate 2147483647 0)
      2147483647 1 0 1 = none ∧
    update_world (shift_grid 2147483647 1 0 0 (List.replicate 2147483647 0))
      (shift_grid 2147483647 1 0 0 (List.replicate 2147483647 0)) 2147483647 1 0 1 = none :=
  ⟨by rw [List.length_replicate]; rfl, update_world_col_overflow _ _,
    update_world_col_overflow _ _⟩

/-- C18, amended.  For `W, H ≥ 1` with `2 * W ≤ INT_MAX`, `2 * H ≤ INT_MAX` and
`W * H ≤ INT_MAX`, a `W × H` grid `g` and a shift `(a, b)` (any integers, so also
`0 ≤ a < H` and `0 ≤ b < W`): the shifted grid holds at
`((r + a) mod H, (c + b) mod W)` the cell `(r, c)` of `g`; `update_world` over the
rows `[0, H)` returns on `g` and on the shifted grid, and its result on the shifted
grid is the shift of its result on `g`. -/
theorem full_generation_shift (W H a b : Int) (g : List Int) (hW : 1 ≤ W) (hH : 1 ≤ H)
    (hW2 : 2 * W ≤ INT_MAX) (hH2 : 2 * H ≤ INT_MAX) (hWH : W * H ≤ INT_MAX)
    (hg : (g.length : Int) = W * H) :
    (∀ r c, 0 ≤ r → r < H → 0 ≤ c → c < W →
      readCell (shift_grid W H a b g) (((r + a) % H) * W + (c + b) % W)
        = readCell g (r * W + c)) ∧
    ∃ g1, update_world g g W H 0 H = some g1 ∧
      update_world (shift_grid W H a b g) (shift_grid W H a b g) W H 0 H
        = some (shift_grid W H a b g1) := by
  have hW0 : 0 < W := by omega
  have hH0 : 0 < H := by omega
  have hfit : GridFits W H := ⟨hW2, hH2, hWH⟩
  have hsize : 0 ≤ W * H := by positivity
  have hslen : ∀ x : List Int, ((shift_grid W H a b x).length : Int) = W * H := by
    intro x
    rw [shift_grid_length]
    omega
  constructor
  · intro r c hr0 hr hc0 hc
    have h := shift_grid_read W H a b g hW0 hH0 hg (r + a) (c + b)
    have e1 : r + a - a = r := by ring
    have e2 : c + b - b = c := by ring
    rw [e1, e2, spec_index_inside r c W H hr0 hr hc0 hc] at h
    exact h
  · obtain ⟨g1, hg1, hl1, hc1⟩ := full_generation_cells g W H hW0 hH0 hfit hg
    obtain ⟨g2, hg2, hl2, hc2⟩ := full_generation_cells (shift_grid W H a b g) W H hW0 hH0
      hfit (hslen g)
    refine ⟨g1, hg1, ?_⟩
    have heq : g2 = shift_grid W H a b g1 := by
      apply grid_ext g2 (shift_grid W H a b g1) W H hW0 hl2 (hslen g1)
      intro r c hr0 hr hc0 hc
      have hr1 := Int.emod_nonneg (r - a) (show H ≠ 0 by omega)
      have hr2 := Int.emod_lt_of_pos (r - a) hH0
      have hcc1 := Int.emod_nonneg (c - b) (show W ≠ 0 by omega)
      have hcc2 := Int.emod_lt_of_pos (c - b) hW0
      rw [hc2 r c hr0 hr hc0 hc, next_state_shift W H a b g hW0 hH0 hg r c hr0 hr hc0 hc,
        ← spec_index_inside r c W H hr0 hr hc0 hc, shift_grid_read W H a b g1 hW0 hH0 hl1,
        ← hc1 ((r - a) % H) ((c - b) % W) hr1 hr2 hcc1 hcc2]
      rfl
    rw [← heq]
    exact hg2

theorem full_generation_shift_witness :
    (∀ r c, 0 ≤ r → r < 3 → 0 ≤ c → c < (4 : Int) →
      readCell (shift_grid 4 3 1 2 [0, 1, 0, 0, 0, 0, 1, 0, 1, 1, 1, 0])
          (((r + 1) % 3) * 4 + (c + 2) % 4)
        = readCell [0, 1, 0, 0, 0, 0, 1, 0, 1, 1, 1, 0] (r * 4 + c)) ∧
    ∃ g1, update_world [0, 1, 0, 0, 0, 0, 1, 0, 1, 1, 1, 0]
        [0, 1, 0, 0, 0, 0, 1, 0, 1, 1, 1, 0] 4 3 0 3 = some g1 ∧
      update_world (shift_grid 4 3 1 2 [0, 1, 0, 0, 0, 0, 1, 0, 1, 1, 1, 0])
          (shift_grid 4 3 1 2 [0, 1, 0, 0, 0, 0, 1, 0, 1, 1, 1, 0]) 4 3 0 3
        = some (shift_grid 4 3 1 2 g1) :=
  full_generation_shift 4 3 1 2 [0, 1, 0, 0, 0, 0, 1, 0, 1, 1, 1, 0] (by decide) (by decide)
    (by decide) (by decide) (by decide) (by decide)

end GOL
